import Mathlib

/-!
Shallow embedding of the core of the alethe-proof-checker / carcara SMT proof
checker: the hash-consing term pool with memoized sort inference
(`src/carcara/src/ast/pool.rs`), the transitivity rule family
(`src/alethe-proof-checker/src/checker/rules/transitivity.rs`), the shared
rule assertions (`src/carcara/src/checker/rules/mod.rs`), the schedule
iterator (`src/carcara/src/checker/scheduler/iter.rs`) and the prototype
parser's sort computation (`src/src/parser/ast.rs`).
-/

set_option maxRecDepth 8000

/-! ## Term data model

The `Term` enum itself is declared in a carcara module that is not among the
provided source files; its shape is reconstructed from the spec (§3) and from
how `pool.rs` and `transitivity.rs` pattern-match on it.  `Vec<Rc<Term>>`
children are modelled by the mutually inductive `TermList`, and binding lists
(`Vec<SortedVar>`) by `BindingList`; `Rc<Term>` children are modelled as
plain subterms, sharing being recovered by the pool model. -/

/-- Modelled from the spec: index of an indexed identifier (`Index` in the
source: a numeral or a symbol). -/
inductive Idx where
  | num (n : Nat)
  | sym (s : String)
deriving DecidableEq, Repr

/-- Modelled from the spec: identifiers, either simple or indexed
(`Identifier` in the source). -/
inductive Ident where
  | simple (s : String)
  | indexed (s : String) (l : List Idx)
deriving DecidableEq, Repr

/-- Modelled from the spec: quantifier kind. -/
inductive Quantifier where
  | all
  | ex
deriving DecidableEq, Repr

/-- The closed operator enumeration of the carcara AST, as listed in the spec
(§3) and matched in `TermPool::compute_sort`. -/
inductive Op where
  | not | implies | and | or | xor | equals | distinct
  | lessThan | greaterThan | lessEq | greaterEq
  | isInt | ite
  | add | sub | mult | realDiv | intDiv | mod | abs | toReal | toInt
  | select | store
deriving DecidableEq, Repr

mutual
/-- Modelled from the spec: the carcara `Term` enum (§3): a terminal, a
function application, an operator application, a sort, a quantifier, a
choice (whose bound `SortedVar` pair is flattened into two fields), a let,
or a lambda. -/
inductive Term where
  | terminal : Terminal → Term
  | app : Term → TermList → Term
  | op : Op → TermList → Term
  | sort : SortT → Term
  | quant : Quantifier → BindingList → Term → Term
  | choice : String → Term → Term → Term
  | lett : BindingList → Term → Term
  | lambda : BindingList → Term → Term

/-- Modelled from the spec: terminal terms (§3): integer, rational and string
literals, and variables carrying their sort as a term. -/
inductive Terminal where
  | integer : Int → Terminal
  | real : Rat → Terminal
  | str : String → Terminal
  | var : Ident → Term → Terminal

/-- Modelled from the spec: the `Sort` enum (§3; named `SortT` because `Sort`
is reserved in Lean): built-ins, `Array(key, value)`, and a function sort
holding its domain and return sorts as terms. -/
inductive SortT where
  | bool | int | real | str
  | array : Term → Term → SortT
  | func : TermList → SortT

/-- A `Vec<Rc<Term>>` of the source, as a mutually inductive list. -/
inductive TermList where
  | nil
  | cons : Term → TermList → TermList

/-- A `Vec<SortedVar>` of the source (each `SortedVar` is a name paired with
a sort term), as a mutually inductive list with the pair flattened. -/
inductive BindingList where
  | nil
  | cons : String → Term → BindingList → BindingList
end

instance : Inhabited Term := ⟨.terminal (.integer 0)⟩

/-! Structural equality on terms (`#[derive(PartialEq, Eq)]` in the source),
written by hand because the deriving handler does not support this mutual
inductive family. -/

mutual
def Term.beq : Term → Term → Bool
  | .terminal a, .terminal b => Terminal.beq a b
  | .app f as, .app g bs => Term.beq f g && TermList.beq as bs
  | .op o as, .op p bs => o == p && TermList.beq as bs
  | .sort s, .sort t => SortT.beq s t
  | .quant q as u, .quant p bs v => q == p && BindingList.beq as bs && Term.beq u v
  | .choice n s u, .choice m t v => n == m && Term.beq s t && Term.beq u v
  | .lett as u, .lett bs v => BindingList.beq as bs && Term.beq u v
  | .lambda as u, .lambda bs v => BindingList.beq as bs && Term.beq u v
  | _, _ => false
termination_by structural a => a
def Terminal.beq : Terminal → Terminal → Bool
  | .integer a, .integer b => a == b
  | .real a, .real b => a == b
  | .str a, .str b => a == b
  | .var i s, .var j t => i == j && Term.beq s t
  | _, _ => false
termination_by structural a => a
def SortT.beq : SortT → SortT → Bool
  | .bool, .bool => true
  | .int, .int => true
  | .real, .real => true
  | .str, .str => true
  | .array k v, .array k₂ v₂ => Term.beq k k₂ && Term.beq v v₂
  | .func as, .func bs => TermList.beq as bs
  | _, _ => false
termination_by structural a => a
def TermList.beq : TermList → TermList → Bool
  | .nil, .nil => true
  | .cons a as, .cons b bs => Term.beq a b && TermList.beq as bs
  | _, _ => false
termination_by structural a => a
def BindingList.beq : BindingList → BindingList → Bool
  | .nil, .nil => true
  | .cons n s as, .cons m t bs => n == m && Term.beq s t && BindingList.beq as bs
  | _, _ => false
termination_by structural a => a
end

set_option maxHeartbeats 1000000 in
theorem beq_spec :
    (∀ a b : Term, (Term.beq a b = true) ↔ a = b) ∧
    (∀ a b : BindingList, (BindingList.beq a b = true) ↔ a = b) ∧
    (∀ a b : SortT, (SortT.beq a b = true) ↔ a = b) ∧
    (∀ a b : TermList, (TermList.beq a b = true) ↔ a = b) ∧
    (∀ a b : Terminal, (Terminal.beq a b = true) ↔ a = b) := by
  apply Term.beq.mutual_induct
  case case9 =>
    intros
    rename_i x y h1 h2 h3 h4 h5 h6 h7 h8
    cases x <;> cases y <;>
      first
        | (exfalso; apply h1 <;> rfl)
        | (exfalso; apply h2 <;> rfl)
        | (exfalso; apply h3 <;> rfl)
        | (exfalso; apply h4 <;> rfl)
        | (exfalso; apply h5 <;> rfl)
        | (exfalso; apply h6 <;> rfl)
        | (exfalso; apply h7 <;> rfl)
        | (exfalso; apply h8 <;> rfl)
        | simp [Term.beq]
  case case14 =>
    intros
    rename_i x y h1 h2 h3 h4
    cases x <;> cases y <;>
      first
        | (exfalso; apply h1 <;> rfl)
        | (exfalso; apply h2 <;> rfl)
        | (exfalso; apply h3 <;> rfl)
        | (exfalso; apply h4 <;> rfl)
        | simp [Terminal.beq]
  case case21 =>
    intros
    rename_i x y h1 h2 h3 h4 h5 h6
    cases x <;> cases y <;>
      first
        | (exfalso; apply h1 <;> rfl)
        | (exfalso; apply h2 <;> rfl)
        | (exfalso; apply h3 <;> rfl)
        | (exfalso; apply h4 <;> rfl)
        | (exfalso; apply h5 <;> rfl)
        | (exfalso; apply h6 <;> rfl)
        | simp [SortT.beq]
  case case24 =>
    intros
    rename_i x y h1 h2
    cases x <;> cases y <;>
      first
        | (exfalso; apply h1 <;> rfl)
        | (exfalso; apply h2 <;> rfl)
        | simp [TermList.beq]
  case case27 =>
    intros
    rename_i x y h1 h2
    cases x <;> cases y <;>
      first
        | (exfalso; apply h1 <;> rfl)
        | (exfalso; apply h2 <;> rfl)
        | simp [BindingList.beq]
  all_goals intros
  all_goals try (simp_all [Term.beq, Terminal.beq, SortT.beq, TermList.beq, BindingList.beq])
  all_goals tauto

instance : DecidableEq Term := fun a b =>
  decidable_of_iff (Term.beq a b = true) (beq_spec.1 a b)

instance : DecidableEq SortT := fun a b =>
  decidable_of_iff (SortT.beq a b = true) (beq_spec.2.2.1 a b)

instance : DecidableEq TermList := fun a b =>
  decidable_of_iff (TermList.beq a b = true) (beq_spec.2.2.2.1 a b)

/-! ## Generic list helpers -/

/-- First index of `x` in `l` (the lookup underlying the interning map). -/
def idxOf? {β : Type} [DecidableEq β] (x : β) : List β → Option Nat
  | [] => none
  | y :: ys => if y = x then some 0 else (idxOf? x ys).map (· + 1)

/-- `Vec::swap` / `slice::swap` of the source: exchange the elements at
positions `i` and `j`.  Out-of-range indices leave the list unchanged (the
source would panic there, but every call proved about below is in range). -/
def listSwap {β : Type} (l : List β) (i j : Nat) : List β :=
  match l.get? i, l.get? j with
  | some a, some b => (l.set i b).set j a
  | _, _ => l

/-! ## Errors and shared assertions -/

/-- Inclusive numeric ranges used by the shared assertions (`Range` in
carcara's `utils`, whose declaration is not among the provided files;
reconstructed from its uses: `1.into()` is an exact range, `3..` a
lower-bounded one). -/
structure NumRange where
  lo : Nat
  hi : Option Nat
deriving DecidableEq, Repr

def NumRange.holds (r : NumRange) (n : Nat) : Bool :=
  r.lo ≤ n && (match r.hi with | none => true | some h => n ≤ h)

/-- The checker error kinds relevant to the claims (`CheckerError` in the
source; `termOfWrongForm` stands for the error produced by the
`match_term_err!` macro, whose definition is not among the provided files —
modelled from the spec's error-kind list, carrying the pattern text and the
offending term). -/
inductive CheckerError (α : Type) where
  | brokenTransitivityChain (a b : α)
  | wrongLengthOfClause (expected : NumRange) (got : Nat)
  | wrongLengthOfPremiseClause (id : String) (expected : NumRange) (got : Nat)
  | termOfWrongForm (pat : String) (t : α)
deriving DecidableEq, Repr

/-- `assert_clause_len` from `src/carcara/src/checker/rules/mod.rs`. -/
def assertClauseLen {α : Type} (clause : List α) (range : NumRange) :
    Except (CheckerError α) Unit :=
  if range.holds clause.length then .ok () else
    .error (.wrongLengthOfClause range clause.length)

/-! ## `find_chain` (`src/alethe-proof-checker/src/checker/rules/transitivity.rs`) -/

/-- The `find_map` search inside `find_chain`: the first premise one of whose
sides equals `l` (`conclusion.0`), with its index; the returned term is the
other side of the premise, i.e. the second component of the reoriented `eq`
of the source. -/
def findLink {α : Type} [DecidableEq α] (l : α) : List (α × α) → Option (Nat × α)
  | [] => none
  | (t, u) :: ps =>
    if t = l then some (0, u)
    else if u = l then some (0, t)
    else (findLink l ps).map (fun p => (p.1 + 1, p.2))

/-- `find_chain`, with the in-place slice mutation made explicit: the result
carries the permuted premise sequence.  `fuel` only bounds the recursion
depth so that the definition is structural; each recursive call consumes one
premise, so the wrapper's `ps.length` always suffices and the fallback arm
the fuel introduces is unreachable from the wrapper. -/
def findChainAux {α : Type} [DecidableEq α] :
    Nat → α × α → List (α × α) → Except (CheckerError α) (List (α × α))
  | 0, (l, r), ps =>
    if l = r then .ok ps else .error (.brokenTransitivityChain l r)
  | fuel + 1, (l, r), ps =>
    if l = r then .ok ps
    else
      match findLink l ps with
      | none => .error (.brokenTransitivityChain l r)
      | some (i, next) =>
        match listSwap ps 0 i with
        | p :: rest =>
          match findChainAux fuel (next, r) rest with
          | .ok rest' => .ok (p :: rest')
          | .error e => .error e
        | [] => .error (.brokenTransitivityChain l r)

def findChain {α : Type} [DecidableEq α] (conclusion : α × α)
    (premises : List (α × α)) : Except (CheckerError α) (List (α × α)) :=
  findChainAux premises.length conclusion premises

/-! ## Spec-side chain notions (spec §4.5, §8) -/

/-- Spec-side notion: the pairs, each taken in one of its two orientations,
link up in the given order into a chain from `l` to `r`. -/
def isOrientedChain {α : Type} [DecidableEq α] (l r : α) : List (α × α) → Bool
  | [] => l == r
  | (t, u) :: ps => (t == l && isOrientedChain u r ps) || (u == l && isOrientedChain t r ps)

/-- All ways of inserting `x` into a list (helper for `perms`). -/
def insEverywhere {β : Type} (x : β) : List β → List (List β)
  | [] => [[x]]
  | y :: ys => (x :: y :: ys) :: (insEverywhere x ys).map (y :: ·)

/-- All permutations of a list (kernel-computable enumeration). -/
def perms {β : Type} : List β → List (List β)
  | [] => [[]]
  | x :: xs => (perms xs).flatMap (insEverywhere x)

/-- All subsequences of a list (kernel-computable enumeration). -/
def subseqs {β : Type} : List β → List (List β)
  | [] => [[]]
  | x :: xs => subseqs xs ++ (subseqs xs).map (x :: ·)

/-- Spec-side notion: some ordering of all the premises, with a per-pair
orientation, forms a chain from `l` to `r` (a chain covering all premises). -/
def existsCoveringChain {α : Type} [DecidableEq α] (l r : α) (ps : List (α × α)) : Bool :=
  (perms ps).any (fun qs => isOrientedChain l r qs)

/-- Spec-side notion: some subset of the premises, in some order and with
per-pair orientations, forms a chain from `l` to `r`. -/
def existsPrefixChain {α : Type} [DecidableEq α] (l r : α) (ps : List (α × α)) : Bool :=
  (subseqs ps).any (fun qs => existsCoveringChain l r qs)

instance {ε β : Type} [DecidableEq ε] [DecidableEq β] : DecidableEq (Except ε β) := fun a b =>
  match a, b with
  | .ok x, .ok y => if h : x = y then isTrue (by rw [h]) else isFalse (by simp [h])
  | .error x, .error y => if h : x = y then isTrue (by rw [h]) else isFalse (by simp [h])
  | .ok _, .error _ => isFalse (by simp)
  | .error _, .ok _ => isFalse (by simp)

example : findChain ((0 : Nat), 0) [(1, 2)] = .ok [(1, 2)] := by decide
example : findChain ((0 : Nat), 5) [(1, 2), (3, 4), (0, 5)] = .ok [(0, 5), (3, 4), (1, 2)] := by
  decide
example :
    findChain ((0 : Nat), 1) [(0, 2), (0, 1)] =
      .error (.brokenTransitivityChain 2 1) := by decide
example : existsPrefixChain (0 : Nat) 1 [(0, 2), (0, 1)] = true := by decide
example : existsCoveringChain (0 : Nat) 0 [(1, 2)] = false := by decide
example : findChain ((0 : Nat), 3) [(1, 0), (2, 1), (3, 2)] = .ok [(1, 0), (2, 1), (3, 2)] := by
  decide

/-! ## Term pool (`src/carcara/src/ast/pool.rs`)

`AHashMap<Term, Rc<Term>>` is modelled as the list of allocations in
insertion order, a reference being the index of its allocation; the sort
cache is an association list.  The free-variable cache is omitted: none of
the operations treated here touch it. -/

/-- `TermPool`, without the free-variable cache. -/
structure Pool where
  terms : List Term
  sortsCache : List (Term × SortT)
  boolTrue : Term
  boolFalse : Term
deriving DecidableEq

/-- Lookup in the sort cache (`sorts_cache[term]`). -/
def lookupSort (p : Pool) (t : Term) : Option SortT :=
  (p.sortsCache.find? (fun e => e.1 = t)).map (·.2)

/-- `sorts_cache.insert(term, result)`. -/
def insertSort (p : Pool) (t : Term) (s : SortT) : Pool :=
  { p with sortsCache := (t, s) :: p.sortsCache }

/-- `add_term_to_map`: return the existing allocation's reference if the term
is present, otherwise allocate it at the end. -/
def intern (p : Pool) (t : Term) : Nat × Pool :=
  match idxOf? t p.terms with
  | some i => (i, p)
  | none => (p.terms.length, { p with terms := p.terms ++ [t] })

/-- The effect, on the pool, of `self.add(Term::Sort(s))` as performed inside
`compute_sort`'s `Lambda` arm: the sort term is interned and its sort (which
is `s` itself, by the `Term::Sort` arm) is cached.  The returned `Rc` is the
sort term itself in this model, so only the pool needs returning. -/
def addSortTerm (p : Pool) (s : SortT) : Pool :=
  let p₁ := (intern p (Term.sort s)).2
  match lookupSort p₁ (Term.sort s) with
  | some _ => p₁
  | none => insertSort p₁ (Term.sort s) s

/-- The sorts of a binding list's variables
(`bindings.iter().map(|(_name, sort)| sort.clone())`). -/
def BindingList.sortTerms : BindingList → TermList
  | .nil => .nil
  | .cons _ s rest => .cons s (BindingList.sortTerms rest)

/-- `Vec::push` on a `TermList`. -/
def TermList.push : TermList → Term → TermList
  | .nil, x => .cons x .nil
  | .cons a as, x => .cons a (TermList.push as x)

/-- `sort.as_sort().unwrap()`: panics (`none`) unless the term is a sort. -/
def asSort : Term → Option SortT
  | .sort s => some s
  | _ => none

/-- `sorts.last().unwrap()` on a `TermList`. -/
def lastTerm : TermList → Option Term
  | .nil => none
  | .cons a .nil => some a
  | .cons _ (.cons b bs) => lastTerm (.cons b bs)

/-! Structural size of a term, used as recursion fuel for `computeSort`
(each recursive call of the source strictly descends into the term, so the
term's size always suffices). -/
mutual
def sizeT : Term → Nat
  | .terminal tm => sizeTm tm + 1
  | .app f as => sizeT f + sizeTL as + 1
  | .op _ as => sizeTL as + 1
  | .sort s => sizeS s + 1
  | .quant _ bs u => sizeB bs + sizeT u + 1
  | .choice _ s u => sizeT s + sizeT u + 1
  | .lett bs u => sizeB bs + sizeT u + 1
  | .lambda bs u => sizeB bs + sizeT u + 1
termination_by structural t => t
def sizeTm : Terminal → Nat
  | .var _ s => sizeT s + 1
  | _ => 1
termination_by structural tm => tm
def sizeS : SortT → Nat
  | .array k v => sizeT k + sizeT v + 1
  | .func as => sizeTL as + 1
  | _ => 1
termination_by structural s => s
def sizeTL : TermList → Nat
  | .nil => 1
  | .cons a as => sizeT a + sizeTL as + 1
termination_by structural ts => ts
def sizeB : BindingList → Nat
  | .nil => 1
  | .cons _ s bs => sizeT s + sizeB bs + 1
termination_by structural bs => bs
end

mutual
/-- `TermPool::compute_sort`, with the `&mut self` threading made explicit
and panics (`unwrap`, `unreachable!`, out-of-bounds indexing) modelled as
`none`.  The `fuel` argument only makes the recursion structural; the
wrapper `computeSort` passes the term's size, which always suffices, so the
`0` arm is unreachable from it. -/
def computeSortF : Nat → Pool → Term → Option (SortT × Pool)
  | fuel, p, t =>
    if hc : (lookupSort p t).isSome then some ((lookupSort p t).get hc, p)
    else
      match fuel with
      | 0 => none
      | fuel' + 1 =>
        Option.map (fun sp => (sp.1, insertSort sp.2 t sp.1))
          (match t with
            | .terminal (.integer _) => some (SortT.int, p)
            | .terminal (.real _) => some (SortT.real, p)
            | .terminal (.str _) => some (SortT.str, p)
            | .terminal (.var _ srt) => (asSort srt).map (fun s => (s, p))
            | .op o args =>
              match o with
              | .not | .implies | .and | .or | .xor | .equals
              | .distinct | .lessThan | .greaterThan | .lessEq
              | .greaterEq | .isInt => some (SortT.bool, p)
              | .ite =>
                match args with
                | .cons _ (.cons a _) => computeSortF fuel' p a
                | _ => none
              | .add | .sub | .mult =>
                (anyRealSortF fuel' p args).map (fun bp =>
                  (if bp.1 then SortT.real else SortT.int, bp.2))
              | .realDiv | .toReal => some (SortT.real, p)
              | .intDiv | .mod | .abs | .toInt => some (SortT.int, p)
              | .select =>
                match args with
                | .cons a _ =>
                  match computeSortF fuel' p a with
                  | some (.array _ v, p₁) => (asSort v).map (fun s => (s, p₁))
                  | _ => none
                | .nil => none
              | .store =>
                match args with
                | .cons a _ => computeSortF fuel' p a
                | .nil => none
            | .app f _ =>
              match computeSortF fuel' p f with
              | some (.func srts, p₁) =>
                match lastTerm srts with
                | some last => (asSort last).map (fun s => (s, p₁))
                | none => none
              | _ => none
            | .sort s => some (s, p)
            | .quant _ _ _ => some (SortT.bool, p)
            | .choice _ srt _ => (asSort srt).map (fun s => (s, p))
            | .lett _ inner => computeSortF fuel' p inner
            | .lambda bindings body =>
              match computeSortF fuel' p body with
              | some (bs, p₁) =>
                some (SortT.func ((bindings.sortTerms).push (Term.sort bs)), addSortTerm p₁ bs)
              | none => none)
termination_by structural fuel => fuel

/-- The short-circuiting
`args.iter().any(|a| *self.compute_sort(a) == Sort::Real)` of the
`Add | Sub | Mult` arm, threading the pool. -/
def anyRealSortF : Nat → Pool → TermList → Option (Bool × Pool)
  | _, p, .nil => some (false, p)
  | fuel, p, .cons a as =>
    match fuel with
    | 0 => none
    | fuel' + 1 =>
      match computeSortF fuel' p a with
      | none => none
      | some (s, p₁) =>
        if s = SortT.real then some (true, p₁) else anyRealSortF fuel' p₁ as
termination_by structural fuel => fuel
end

/-- `TermPool::compute_sort`. -/
def computeSort (p : Pool) (t : Term) : Option (SortT × Pool) :=
  computeSortF (sizeT t) p t

/-- `TermPool::add`: intern the term, then compute (and cache) its sort. -/
def Pool.add (p : Pool) (t : Term) : Option (Nat × Pool) :=
  match intern p t with
  | (r, p₁) =>
    match computeSort p₁ t with
    | some (_, p₂) => some (r, p₂)
    | none => none

/-- The `Bool` sort term preinterned by `TermPool::new`. -/
def boolSortTerm : Term := Term.sort .bool

/-- The boolean constant terms preinterned by `TermPool::new`. -/
def boolConstTerm (s : String) : Term :=
  Term.terminal (.var (.simple s) boolSortTerm)

/-- `TermPool::new`: the `Bool` sort and the constants `true` and `false`
are interned, and all three are entered in the sort cache. -/
def Pool.new : Pool :=
  { terms := [boolSortTerm, boolConstTerm "true", boolConstTerm "false"]
    sortsCache :=
      [(boolConstTerm "false", .bool), (boolConstTerm "true", .bool), (boolSortTerm, .bool)]
    boolTrue := boolConstTerm "true"
    boolFalse := boolConstTerm "false" }

/-! ## The pure reference sort evaluator

`sortOf` is the cache-free rendering of the same recursion; the validity
invariant below ties the cache to it. -/

mutual
/-- Pure sort inference: `computeSort` without the pool. -/
def sortOf : Term → Option SortT
  | .terminal (.integer _) => some SortT.int
  | .terminal (.real _) => some SortT.real
  | .terminal (.str _) => some SortT.str
  | .terminal (.var _ srt) => asSort srt
  | .op o args =>
    match o with
    | .not | .implies | .and | .or | .xor | .equals
    | .distinct | .lessThan | .greaterThan | .lessEq
    | .greaterEq | .isInt => some SortT.bool
    | .ite =>
      match args with
      | .cons _ (.cons a _) => sortOf a
      | _ => none
    | .add | .sub | .mult =>
      (sortOfAnyReal args).map (fun b => if b then SortT.real else SortT.int)
    | .realDiv | .toReal => some SortT.real
    | .intDiv | .mod | .abs | .toInt => some SortT.int
    | .select =>
      match args with
      | .cons a _ =>
        match sortOf a with
        | some (.array _ v) => asSort v
        | _ => none
      | .nil => none
    | .store =>
      match args with
      | .cons a _ => sortOf a
      | .nil => none
  | .app f _ =>
    match sortOf f with
    | some (.func srts) =>
      match lastTerm srts with
      | some last => asSort last
      | none => none
    | _ => none
  | .sort s => some s
  | .quant _ _ _ => some SortT.bool
  | .choice _ srt _ => asSort srt
  | .lett _ inner => sortOf inner
  | .lambda bindings body =>
    match sortOf body with
    | some bs => some (SortT.func ((bindings.sortTerms).push (Term.sort bs)))
    | none => none
termination_by structural t => t

/-- Pure rendering of the short-circuiting `any` over argument sorts. -/
def sortOfAnyReal : TermList → Option Bool
  | .nil => some false
  | .cons a as =>
    match sortOf a with
    | none => none
    | some s => if s = SortT.real then some true else sortOfAnyReal as
termination_by structural ts => ts
end

/-- Cache validity: every cache entry agrees with the reference evaluator. -/
def Pool.Valid (p : Pool) : Prop :=
  ∀ t s, lookupSort p t = some s → sortOf t = some s

/-- Pool well-formedness: valid cache and duplicate-free allocations. -/
def Pool.WF (p : Pool) : Prop :=
  p.Valid ∧ p.terms.Nodup

example :
    sortOf (.op .add (.cons (.terminal (.integer 1))
      (.cons (.terminal (.real 1)) .nil))) = some .real := by decide
example :
    sortOf (.op .select (.cons (.terminal (.integer 1))
      (.cons (.terminal (.integer 0)) .nil))) = none := by decide

example :
    Pool.add Pool.new (.op .select (.cons (.terminal (.integer 1))
      (.cons (.terminal (.integer 0)) .nil))) = none := by decide
example :
    (Pool.add Pool.new (.op .add (.cons (.terminal (.integer 1))
      (.cons (.terminal (.real 1)) .nil)))).isSome = true := by decide
example :
    (computeSort Pool.new (.op .add (.cons (.terminal (.integer 1))
      (.cons (.terminal (.real 1)) .nil)))).map Prod.fst = some .real := by decide
example :
    (Pool.add Pool.new (.terminal (.integer 7))).map Prod.fst = some 3 := by decide

/-! ## Rule argument bundle and the `trans` / `eq_transitive` checkers
(`src/alethe-proof-checker/src/checker/rules/transitivity.rs`) -/

/-- A resolved premise of the alethe-proof-checker rule code (`Premise`, as
constructed in `reconstruct_trans`: the clause together with the premise's
step identifier). -/
structure Premise where
  clause : List Term
  index : String
deriving DecidableEq

instance : Inhabited Premise := ⟨⟨[], ""⟩⟩

/-- Modelled from the spec: literal rule arguments (`ProofArg`, §4.4): a
plain term or an assignment. -/
inductive ProofArg where
  | term (t : Term)
  | assign (name : String) (t : Term)
deriving DecidableEq

/-- A step of the alethe-proof-checker proof model (`ProofStep`), with the
fields `reconstruct_trans` constructs. -/
structure ProofStep where
  index : String
  clause : List Term
  rule : String
  premises : List Premise
  args : List ProofArg
  discharge : List String
deriving DecidableEq

/-- Proof commands as produced by `reconstruct_trans` (`ProofCommand`): a
step or a subproof (the `Subproof` struct's `commands`, `assignment_args`
and `variable_args` fields are inlined into the constructor; the variants
not constructed there are omitted). -/
inductive AProofCommand where
  | step (s : ProofStep)
  | subproof (commands : List AProofCommand) (assignmentArgs : List (String × Term))
      (variableArgs : List (String × Term))

/-- The rule argument bundle (`RuleArgs` of
`src/carcara/src/checker/rules/mod.rs`), with borrowed data modelled as
values; the `deep_eq_time` accumulator is modelled as a counter. -/
structure RuleArgs where
  conclusion : List Term
  premises : List Premise
  args : List ProofArg
  pool : Pool
  context : List (List (String × Term))
  previousCommand : Option Premise
  discharge : List Premise
  deepEqTime : Nat

/-- `match_term_err!((= t u) = term)`: succeeds iff the term is an `Equals`
application with exactly two arguments. -/
def matchEq (t : Term) : Except (CheckerError Term) (Term × Term) :=
  match t with
  | .op .equals (.cons a (.cons b .nil)) => .ok (a, b)
  | _ => .error (.termOfWrongForm "(= t u)" t)

/-- `match_term_err!((not (= t u)) = term)`. -/
def matchNotEq (t : Term) : Except (CheckerError Term) (Term × Term) :=
  match t with
  | .op .not (.cons (.op .equals (.cons a (.cons b .nil))) .nil) => .ok (a, b)
  | _ => .error (.termOfWrongForm "(not (= t u))" t)

/-- `get_premise_term` (`src/carcara/src/checker/rules/mod.rs`): the single
term of a unit premise clause, or `WrongLengthOfPremiseClause` carrying the
premise's identifier. -/
def getPremiseTerm (premise : Premise) : Except (CheckerError Term) Term :=
  match premise.clause with
  | [t] => .ok t
  | cl => .error (.wrongLengthOfPremiseClause premise.index ⟨1, some 1⟩ cl.length)

/-- The `eq_transitive` rule. -/
def eqTransitive (args : RuleArgs) : Except (CheckerError Term) Unit := do
  let _ ← assertClauseLen args.conclusion ⟨3, none⟩
  let chainConclusion ← matchEq (args.conclusion.getLast?.getD default)
  let premises ← (args.conclusion.dropLast).mapM matchNotEq
  let _ ← findChain chainConclusion premises
  pure ()

/-- The `trans` rule (namespaced because `trans` is already taken at the
root in Lean). -/
def Checker.trans (args : RuleArgs) : Except (CheckerError Term) Unit := do
  let _ ← assertClauseLen args.conclusion ⟨1, some 1⟩
  let conclusion ← matchEq (args.conclusion.headD default)
  let premises ← args.premises.mapM (fun premise => do matchEq (← getPremiseTerm premise))
  let _ ← findChain conclusion premises
  pure ()

/-! ## The `trans` elaborator (`reconstruct_trans`) -/

/-- The oriented search of `reconstruct_chain`: the index of the first
premise one of whose sides equals `l`, the other side (`next_link`), and the
pushed `should_flip` bit (`true` iff the match was on the right side). -/
def findLinkFlip (l : Term) : List (Term × Term) → Option (Nat × Term × Bool)
  | [] => none
  | (t, u) :: ps =>
    if t = l then some (0, u, false)
    else if u = l then some (0, t, true)
    else (findLinkFlip l ps).map (fun r => (r.1 + 1, r.2))

/-- `reconstruct_chain`: like `find_chain`, but swapping the premise records
in parallel with the equalities and recording the orientation bits.  As with
`findChainAux`, `fuel` only makes the recursion structural and the wrapper
call always supplies enough. -/
def reconstructChainAux :
    Nat → Term × Term → List (Term × Term) → List Premise → List Bool →
    Except (CheckerError Term) (List (Term × Term) × List Premise × List Bool)
  | 0, (l, r), eqs, prems, flips =>
    if l = r then .ok (eqs, prems, flips) else .error (.brokenTransitivityChain l r)
  | fuel + 1, (l, r), eqs, prems, flips =>
    if l = r then .ok (eqs, prems, flips)
    else
      match findLinkFlip l eqs with
      | none => .error (.brokenTransitivityChain l r)
      | some (i, next, flip) =>
        match listSwap eqs 0 i, listSwap prems 0 i with
        | e :: eqs', pr :: prems' =>
          match reconstructChainAux fuel (next, r) eqs' prems' (flips ++ [flip]) with
          | .ok (es, ps, fs) => .ok (e :: es, pr :: ps, fs)
          | .error err => .error err
        | _, _ => .error (.brokenTransitivityChain l r)

/-- The `symm`-step synthesis loop of `reconstruct_trans`
(`should_flip.iter().enumerate().map(..)`, with the in-place replacement of
`new_premises[j]` made explicit): `i` counts the synthesized steps, `js`
holds the indices of the premises to flip, in increasing order.  The
`build_term!(pool, (= {b} {a}))` interning side effect on the pool is not
observable in the returned commands and is omitted. -/
def buildSymmSteps (commandIndex : String) (eqs : List (Term × Term)) :
    Nat → List Nat → List Premise → (List AProofCommand × List Premise)
  | _, [], prems => ([], prems)
  | i, j :: js, prems =>
    let e := eqs.getD j (default, default)
    let conclusion := Term.op .equals (.cons e.2 (.cons e.1 .nil))
    let clause := [conclusion]
    let index := commandIndex ++ ".t" ++ toString (i + 1)
    let oldPremise := prems.getD j default
    let prems₁ := prems.set j { clause := clause, index := index }
    let rest := buildSymmSteps commandIndex eqs (i + 1) js prems₁
    let symmStep : ProofStep :=
      { index := index, clause := clause, rule := "symm",
        premises := [oldPremise], args := [], discharge := [] }
    (AProofCommand.step symmStep :: rest.1, rest.2)

/-- `reconstruct_trans`. -/
def reconstructTrans (args : RuleArgs) (commandIndex : String) (_currentDepth : Nat) :
    Except (CheckerError Term) AProofCommand := do
  let _ ← assertClauseLen args.conclusion ⟨1, some 1⟩
  let conclusionEquality ← matchEq (args.conclusion.headD default)
  let premiseEqualities ← args.premises.mapM (fun premise => do matchEq (← getPremiseTerm premise))
  match reconstructChainAux premiseEqualities.length conclusionEquality premiseEqualities
      args.premises [] with
  | .error e => .error e
  | .ok (eqs, newPremises, flips) =>
    let shouldFlip := flips.enum.filterMap (fun ib => if ib.2 then some ib.1 else none)
    if shouldFlip = [] then
      let newStep : ProofStep :=
        { index := commandIndex, clause := args.conclusion, rule := "trans",
          premises := newPremises, args := [], discharge := [] }
      .ok (.step newStep)
    else
      let built := buildSymmSteps commandIndex eqs 0 shouldFlip newPremises
      let finalStep : ProofStep :=
        { index := commandIndex, clause := args.conclusion, rule := "trans",
          premises := built.2, args := [], discharge := [] }
      .ok (.subproof (built.1 ++ [.step finalStep]) [] [])

/-! ## The schedule iterator (`src/carcara/src/checker/scheduler/iter.rs`) -/

/-- Modelled from the spec: carcara proof commands as traversed by the
schedule iterator (§3): an assumption, a step (premises as `(depth, offset)`
references), a subproof, or the synthetic closing marker. -/
inductive CCommand where
  | assume (id : String) (t : Term)
  | step (id : String) (clause : List Term) (rule : String) (premises : List (Nat × Nat))
  | subproof (commands : List CCommand) (assignmentArgs : List (String × Term))
      (variableArgs : List (String × Term))
  | closing

/-- `usize::MAX`, the sentinel offset marking the end of a subproof. -/
def usizeMax : Nat := 2 ^ 64 - 1

/-- `ScheduleIter`: the stack of open command slices (the head of
`proofStack` is the top of the stack), the schedule, and the position in
it. -/
structure ScheduleIter where
  proofStack : List (List CCommand)
  steps : List (Nat × Nat)
  stepId : Nat

/-- `ScheduleIter::new`. -/
def ScheduleIter.new (proofCommands : List CCommand) (steps : List (Nat × Nat)) :
    ScheduleIter :=
  ⟨[proofCommands], steps, 0⟩

/-- `ScheduleIter::depth`. -/
def ScheduleIter.depth (it : ScheduleIter) : Nat :=
  it.proofStack.length - 1

/-- The `while cur_step.0 != self.proof_stack.len() - 1 { pop }` loop of
`next`.  On a well-formed coordinate the wanted depth is reached before the
stack empties; when it is not, the source loops forever or panics, which the
`[]` base case stands for (`next` then gets stuck). -/
def popToDepth (d : Nat) : List (List CCommand) → List (List CCommand)
  | [] => []
  | f :: rest => if rest.length = d then f :: rest else popToDepth d rest

/-- The outcome of one `ScheduleIter::next` call: exhaustion (`ended`), a
panic or divergence on a malformed schedule (`stuck`), or a yielded command
together with the updated iterator. -/
inductive NextResult where
  | ended
  | stuck
  | yielded (cmd : CCommand) (it : ScheduleIter)

/-- `ScheduleIter::next`. -/
def ScheduleIter.next (it : ScheduleIter) : NextResult :=
  if h : it.stepId < it.steps.length then
    let curStep := it.steps.get ⟨it.stepId, h⟩
    let it₁ : ScheduleIter := { it with stepId := it.stepId + 1 }
    if curStep.2 = usizeMax then .yielded .closing it₁
    else
      match popToDepth curStep.1 it₁.proofStack with
      | [] => .stuck
      | top :: rest =>
        match top.get? curStep.2 with
        | none => .stuck
        | some cmd =>
          match cmd with
          | .subproof cmds aargs vargs =>
            .yielded (.subproof cmds aargs vargs) { it₁ with proofStack := cmds :: top :: rest }
          | c => .yielded c { it₁ with proofStack := top :: rest }
  else .ended

/-! ## The prototype parser's sort computation (`src/src/parser/ast.rs`) -/

/-- Operators of the prototype parser (`Operator`). -/
inductive POp where
  | add | sub | mult | div | eq | or | and | not
deriving DecidableEq

mutual
/-- The prototype parser's `Term`. -/
inductive PTerm where
  | terminal : PTerminal → PTerm
  | app : PTerm → PTermList → PTerm
  | op : POp → PTermList → PTerm

/-- The prototype parser's `Terminal` (variables carry no sort here;
`Integer`/`Real` are over unsigned machine integers, modelled as `Nat` and
`Rat`). -/
inductive PTerminal where
  | integer (n : Nat)
  | real (q : Rat)
  | str (s : String)
  | var (id : Ident)

/-- `Vec<Rc<Term>>` of the prototype, as a mutually inductive list. -/
inductive PTermList where
  | nil
  | cons : PTerm → PTermList → PTermList
end

/-- The prototype's `Sort` newtype over `Term`. -/
structure PSort where
  term : PTerm

/-- `sort_from_iden!`: the sort named by a simple identifier. -/
def psortNamed (s : String) : PSort :=
  ⟨.terminal (.var (.simple s))⟩

/-- `Term::sort` of the prototype parser; the `todo!()` arms and the
`args[0]` indexing of an empty argument vector are modelled as `none`. -/
def PTerm.sortOf : PTerm → Option PSort
  | .terminal t =>
    match t with
    | .integer _ => some (psortNamed "Int")
    | .real _ => some (psortNamed "Real")
    | .str _ => some (psortNamed "String")
    | .var (.simple s) =>
      if s = "true" || s = "false" then some (psortNamed "Bool") else none
    | .var _ => none
  | .op o args =>
    match o with
    | .add | .sub | .mult | .div =>
      match args with
      | .cons a _ => PTerm.sortOf a
      | .nil => none
    | .eq | .or | .and | .not => some (psortNamed "Bool")
  | .app _ _ => none
termination_by structural t => t

/-! ## Shorthand constructors used by the statements and tests -/

/-- `(= a b)`. -/
def eqT (a b : Term) : Term := .op .equals (.cons a (.cons b .nil))

/-- `(not t)`. -/
def notT (t : Term) : Term := .op .not (.cons t .nil)

/-- A `RuleArgs` bundle with the given conclusion and premises and inert
remaining fields. -/
def mkArgs (conclusion : List Term) (premises : List Premise) : RuleArgs :=
  { conclusion := conclusion, premises := premises, args := [], pool := Pool.new,
    context := [], previousCommand := none, discharge := [], deepEqTime := 0 }

/-- Distinct constant terms for concrete test inputs. -/
def cT (n : Int) : Term := .terminal (.integer n)

example :
    eqTransitive (mkArgs [notT (eqT (cT 0) (cT 1)), notT (eqT (cT 1) (cT 2)),
      eqT (cT 0) (cT 2)] []) = .ok () := by decide
example :
    eqTransitive (mkArgs [notT (eqT (cT 1) (cT 0)), notT (eqT (cT 2) (cT 1)),
      notT (eqT (cT 3) (cT 2)), eqT (cT 0) (cT 3)] []) = .ok () := by decide
example :
    eqTransitive (mkArgs [notT (eqT (cT 0) (cT 1)), notT (eqT (cT 2) (cT 3)),
      eqT (cT 0) (cT 3)] []) =
      .error (.brokenTransitivityChain (cT 1) (cT 3)) := by decide
example :
    eqTransitive (mkArgs [notT (eqT (cT 0) (cT 1)), eqT (cT 0) (cT 1)] []) =
      .error (.wrongLengthOfClause ⟨3, none⟩ 2) := by decide
example :
    Checker.trans (mkArgs [eqT (cT 0) (cT 2)]
      [⟨[eqT (cT 0) (cT 1)], "h1"⟩, ⟨[eqT (cT 1) (cT 2)], "h2"⟩]) = .ok () := by decide
example :
    Checker.trans (mkArgs [notT (eqT (cT 0) (cT 2))]
      [⟨[eqT (cT 0) (cT 1)], "h1"⟩, ⟨[eqT (cT 1) (cT 2)], "h2"⟩]) =
      .error (.termOfWrongForm "(= t u)" (notT (eqT (cT 0) (cT 2)))) := by decide
example :
    Checker.trans (mkArgs [eqT (cT 0) (cT 2)]
      [⟨[eqT (cT 0) (cT 1)], "h1"⟩, ⟨[eqT (cT 1) (cT 2)], "h2"⟩, ⟨[], "h3"⟩]) =
      .error (.wrongLengthOfPremiseClause "h3" ⟨1, some 1⟩ 0) := by decide

example :
    reconstructTrans (mkArgs [eqT (cT 0) (cT 2)]
      [⟨[eqT (cT 1) (cT 0)], "h1"⟩, ⟨[eqT (cT 1) (cT 2)], "h2"⟩]) "t1" 0 =
      .ok (.subproof
        [.step ⟨"t1.t1", [eqT (cT 0) (cT 1)], "symm",
            [⟨[eqT (cT 1) (cT 0)], "h1"⟩], [], []⟩,
         .step ⟨"t1", [eqT (cT 0) (cT 2)], "trans",
            [⟨[eqT (cT 0) (cT 1)], "t1.t1"⟩, ⟨[eqT (cT 1) (cT 2)], "h2"⟩], [], []⟩]
        [] []) := by rfl

example :
    reconstructTrans (mkArgs [eqT (cT 0) (cT 2)]
      [⟨[eqT (cT 1) (cT 2)], "h2"⟩, ⟨[eqT (cT 0) (cT 1)], "h1"⟩]) "t1" 0 =
      .ok (.step ⟨"t1", [eqT (cT 0) (cT 2)], "trans",
        [⟨[eqT (cT 0) (cT 1)], "h1"⟩, ⟨[eqT (cT 1) (cT 2)], "h2"⟩], [], []⟩) := by rfl

example :
    PTerm.sortOf (.op .add (.cons (.terminal (.integer 1))
      (.cons (.terminal (.real 1)) .nil))) = some (psortNamed "Int") := by rfl

/-- The arguments of a `TermList`, as an ordinary list (used only to state
the "any argument's sort is Real" condition). -/
def TermList.toList : TermList → List Term
  | .nil => []
  | .cons a as => a :: TermList.toList as

/-- The pool obtained by adding the integer constant `7` to a fresh pool:
the term is allocated at index 3 and its sort is cached. -/
def c4Pool : Pool :=
  ⟨Pool.new.terms ++ [cT 7], (cT 7, SortT.int) :: Pool.new.sortsCache,
    Pool.new.boolTrue, Pool.new.boolFalse⟩

/-- Arguments `1 : Int, 1.0 : Real` of a mixed-sort arithmetic application. -/
def c7Args : TermList :=
  .cons (.terminal (.integer 1)) (.cons (.terminal (.real 1)) .nil)

/-- The mixed-sort addition `(+ 1 1.0)`. -/
def c7Term : Term := .op .add c7Args

/-- The pool state after computing `c7Term`'s sort in a fresh pool. -/
def c7Pool : Pool :=
  ⟨Pool.new.terms,
    (c7Term, SortT.real) :: (Term.terminal (.real 1), SortT.real) ::
      (Term.terminal (.integer 1), SortT.int) :: Pool.new.sortsCache,
    Pool.new.boolTrue, Pool.new.boolFalse⟩

def c3Args : RuleArgs :=
  mkArgs [eqT (cT 0) (cT 2)] [⟨[eqT (cT 1) (cT 0)], "h1"⟩, ⟨[eqT (cT 1) (cT 2)], "h2"⟩]

def c3Cmd : AProofCommand :=
  .subproof
    [.step ⟨"t1.t1", [eqT (cT 0) (cT 1)], "symm", [⟨[eqT (cT 1) (cT 0)], "h1"⟩], [], []⟩,
     .step ⟨"t1", [eqT (cT 0) (cT 2)], "trans",
        [⟨[eqT (cT 0) (cT 1)], "t1.t1"⟩, ⟨[eqT (cT 1) (cT 2)], "h2"⟩], [], []⟩]
    [] []

/-! ## Lemmas about `listSwap` and `findLink` -/

theorem listSwap_zero_zero {β : Type} (l : List β) : listSwap l 0 0 = l := by
  cases l with
  | nil => rfl
  | cons x t => simp [listSwap]

theorem listSwap_zero_succ {β : Type} (x : β) (t : List β) (k : Nat) (h : k < t.length) :
    listSwap (x :: t) 0 (k + 1) = t.get ⟨k, h⟩ :: t.set k x := by
  simp [listSwap, List.getElem?_eq_getElem h]

theorem cons_get_set_perm {β : Type} :
    ∀ (t : List β) (k : Nat) (x : β) (h : k < t.length),
      (t.get ⟨k, h⟩ :: t.set k x).Perm (x :: t) := by
  intro t
  induction t with
  | nil => intro k x h; simp at h
  | cons a t ih =>
    intro k x h
    cases k with
    | zero => simpa using List.Perm.swap x a t
    | succ k =>
      have hk : k < t.length := by simpa using h
      have h1 : (t.get ⟨k, hk⟩ :: a :: t.set k x).Perm (a :: t.get ⟨k, hk⟩ :: t.set k x) :=
        List.Perm.swap a (t.get ⟨k, hk⟩) (t.set k x)
      have h2 : (a :: t.get ⟨k, hk⟩ :: t.set k x).Perm (a :: x :: t) := (ih k x hk).cons a
      have h3 : (a :: x :: t).Perm (x :: a :: t) := List.Perm.swap x a t
      simpa using (h1.trans h2).trans h3

theorem listSwap_zero_spec {β : Type} (ps : List β) (i : Nat) (h : i < ps.length) :
    ∃ p rest, listSwap ps 0 i = p :: rest ∧ ps.get? i = some p ∧ (p :: rest).Perm ps := by
  cases ps with
  | nil => simp at h
  | cons x t =>
    cases i with
    | zero => exact ⟨x, t, listSwap_zero_zero _, rfl, List.Perm.refl _⟩
    | succ k =>
      have hk : k < t.length := by simpa using h
      refine ⟨t.get ⟨k, hk⟩, t.set k x, listSwap_zero_succ x t k hk, ?_, ?_⟩
      · simp [List.getElem?_eq_getElem hk]
      · exact cons_get_set_perm t k x hk

theorem findLink_some {α : Type} [DecidableEq α] (l : α) :
    ∀ (ps : List (α × α)) (i : Nat) (next : α), findLink l ps = some (i, next) →
      ∃ t u, ps.get? i = some (t, u) ∧ ((t = l ∧ next = u) ∨ (u = l ∧ next = t)) := by
  intro ps
  induction ps with
  | nil => intro i next h; simp [findLink] at h
  | cons p ps ih =>
    intro i next h
    obtain ⟨t, u⟩ := p
    by_cases h1 : t = l
    · subst h1
      simp only [findLink, if_pos rfl] at h
      injection h with h2
      injection h2 with h3 h4
      subst h3; subst h4
      exact ⟨t, u, rfl, Or.inl ⟨rfl, rfl⟩⟩
    · by_cases h2 : u = l
      · subst h2
        simp only [findLink, if_neg h1, if_pos rfl] at h
        injection h with h3
        injection h3 with h4 h5
        subst h4; subst h5
        exact ⟨t, u, rfl, Or.inr ⟨rfl, rfl⟩⟩
      · simp only [findLink, if_neg h1, if_neg h2, Option.map_eq_some'] at h
        obtain ⟨⟨i', next'⟩, hfl, heq⟩ := h
        injection heq with h3 h4
        subst h3; subst h4
        obtain ⟨t', u', hget, hor⟩ := ih i' next' hfl
        exact ⟨t', u', by simpa using hget, hor⟩

theorem findLink_some_lt {α : Type} [DecidableEq α] {l : α} {ps : List (α × α)} {i : Nat}
    {next : α} (h : findLink l ps = some (i, next)) : i < ps.length := by
  obtain ⟨t, u, hget, -⟩ := findLink_some l ps i next h
  obtain ⟨hlt, -⟩ := List.get?_eq_some.mp hget
  exact hlt

/-! ## Soundness of `find_chain` -/

theorem findChainAux_ok {α : Type} [DecidableEq α] :
    ∀ (fuel : Nat) (l r : α) (ps qs : List (α × α)),
      findChainAux fuel (l, r) ps = .ok qs →
      qs.Perm ps ∧ ∃ k, k ≤ qs.length ∧ isOrientedChain l r (List.take k qs) = true := by
  intro fuel
  induction fuel with
  | zero =>
    intro l r ps qs h
    by_cases hlr : l = r
    · subst hlr
      simp only [findChainAux, if_pos rfl] at h
      injection h with h1
      subst h1
      exact ⟨List.Perm.refl _, 0, Nat.zero_le _, by simp [isOrientedChain]⟩
    · simp only [findChainAux, if_neg hlr] at h
      exact Except.noConfusion h
  | succ fuel ih =>
    intro l r ps qs h
    by_cases hlr : l = r
    · subst hlr
      simp only [findChainAux, if_pos rfl] at h
      injection h with h1
      subst h1
      exact ⟨List.Perm.refl _, 0, Nat.zero_le _, by simp [isOrientedChain]⟩
    · simp only [findChainAux, if_neg hlr] at h
      split at h
      · exact Except.noConfusion h
      · rename_i i next hfl
        split at h
        · rename_i p rest hsw
          split at h
          · rename_i rest' hrec
            injection h with h1
            subst h1
            have hlt : i < ps.length := findLink_some_lt hfl
            obtain ⟨p₀, rest₀, hsw₀, hget, hperm⟩ := listSwap_zero_spec ps i hlt
            rw [hsw] at hsw₀
            injection hsw₀ with he1 he2
            subst he1; subst he2
            obtain ⟨hpermR, k, hk, hchain⟩ := ih next r rest rest' hrec
            obtain ⟨t, u, hget', hor⟩ := findLink_some l ps i next hfl
            rw [hget] at hget'
            injection hget' with hp
            refine ⟨(hpermR.cons p).trans hperm, k + 1, by simpa using hk, ?_⟩
            subst hp
            rcases hor with ⟨ht, hnext⟩ | ⟨hu, hnext⟩
            · subst ht; subst hnext
              simp [isOrientedChain, hchain]
            · subst hu; subst hnext
              simp [isOrientedChain, hchain]
          · exact Except.noConfusion h
        · exact Except.noConfusion h

/-- Soundness of `find_chain`: on success the returned sequence is a
permutation of the premises and some prefix of it is an oriented chain from
`l` to `r`. -/
theorem findChain_ok {α : Type} [DecidableEq α] {l r : α} {ps qs : List (α × α)}
    (h : findChain (l, r) ps = .ok qs) :
    qs.Perm ps ∧ ∃ k, k ≤ qs.length ∧ isOrientedChain l r (List.take k qs) = true :=
  findChainAux_ok ps.length l r ps qs h

/-- Reflexive conclusions succeed immediately, leaving the premises
untouched. -/
theorem findChainAux_refl {α : Type} [DecidableEq α] (fuel : Nat) (l : α)
    (ps : List (α × α)) : findChainAux fuel (l, l) ps = .ok ps := by
  cases fuel <;> simp [findChainAux]

theorem findChain_refl {α : Type} [DecidableEq α] (l : α) (ps : List (α × α)) :
    findChain (l, l) ps = .ok ps :=
  findChainAux_refl ps.length l ps

/-! ## Plumbing lemmas for `Except` and `mapM` -/

theorem except_bind_ok {ε β γ : Type} {x : Except ε β} {f : β → Except ε γ} {c : γ}
    (h : (x >>= f) = .ok c) : ∃ b, x = .ok b ∧ f b = .ok c := by
  cases x with
  | ok b => exact ⟨b, rfl, h⟩
  | error e => exact Except.noConfusion h

theorem except_bind_error {ε β γ : Type} {e : ε} (x : Except ε β) (f : β → Except ε γ)
    (h : x = .error e) : (x >>= f) = .error e := by
  subst h; rfl

theorem except_bind_ok_cont {ε β γ : Type} {x : Except ε β} {b : β} (f : β → Except ε γ)
    (h : x = .ok b) : (x >>= f) = f b := by
  subst h; rfl

theorem mapM_ok_forall₂ {ε β γ : Type} (f : β → Except ε γ) :
    ∀ (xs : List β) (ys : List γ), xs.mapM f = .ok ys →
      List.Forall₂ (fun x y => f x = .ok y) xs ys := by
  intro xs
  induction xs with
  | nil =>
    intro ys h
    rw [List.mapM_nil] at h
    injection h with h1
    subst h1
    exact List.Forall₂.nil
  | cons a as ih =>
    intro ys h
    rw [List.mapM_cons] at h
    obtain ⟨b, hb, h⟩ := except_bind_ok h
    obtain ⟨bs, hbs, h⟩ := except_bind_ok h
    injection h with h1
    subst h1
    exact List.Forall₂.cons hb (ih bs hbs)

theorem mapM_error_at {ε β γ : Type} (f : β → Except ε γ) :
    ∀ (xs : List β) (k : Nat) (e : ε),
      (∀ j (_hj : j < k) (hx : j < xs.length), ∃ y, f (xs.get ⟨j, hx⟩) = .ok y) →
      ∀ (hk : k < xs.length), f (xs.get ⟨k, hk⟩) = .error e → xs.mapM f = .error e := by
  intro xs
  induction xs with
  | nil => intro k e _ hk; simp at hk
  | cons a as ih =>
    intro k e hprev hk herr
    rw [List.mapM_cons]
    cases k with
    | zero =>
      exact except_bind_error _ _ herr
    | succ k =>
      obtain ⟨y, hy⟩ := hprev 0 (Nat.succ_pos k) (Nat.succ_pos as.length)
      have hy' : f a = .ok y := by simpa using hy
      rw [except_bind_ok_cont _ hy']
      have hk' : k < as.length := by simpa using hk
      have : as.mapM f = .error e := by
        refine ih k e ?_ hk' (by simpa using herr)
        intro j hj hx
        simpa using hprev (j + 1) (by omega) (by simpa using hx)
      rw [except_bind_error _ _ this]

/-! ## Extraction lemmas for the rule checkers -/

theorem matchEq_ok {t a b : Term} (h : matchEq t = .ok (a, b)) : t = eqT a b := by
  unfold matchEq at h
  split at h
  · rename_i a' b'
    injection h with h1
    injection h1 with h2 h3
    subst h2; subst h3
    rfl
  · exact Except.noConfusion h

theorem matchNotEq_ok {t a b : Term} (h : matchNotEq t = .ok (a, b)) : t = notT (eqT a b) := by
  unfold matchNotEq at h
  split at h
  · rename_i a' b'
    injection h with h1
    injection h1 with h2 h3
    subst h2; subst h3
    rfl
  · exact Except.noConfusion h

theorem matchEq_not_ok {t : Term} (h : ¬ ∃ a b, t = eqT a b) :
    matchEq t = .error (.termOfWrongForm "(= t u)" t) := by
  unfold matchEq
  split
  · rename_i a b
    exact absurd ⟨a, b, rfl⟩ h
  · rfl

theorem getPremiseTerm_ok {pr : Premise} {t : Term} (h : getPremiseTerm pr = .ok t) :
    pr.clause = [t] := by
  unfold getPremiseTerm at h
  split at h
  · injection h with h1
    subst h1
    assumption
  · exact Except.noConfusion h

theorem getPremiseTerm_error {pr : Premise} (h : pr.clause.length ≠ 1) :
    getPremiseTerm pr =
      .error (.wrongLengthOfPremiseClause pr.index ⟨1, some 1⟩ pr.clause.length) := by
  unfold getPremiseTerm
  split
  · rename_i t heq
    rw [heq] at h
    simp at h
  · rfl

theorem assertClauseLen_ok {cl : List Term} {r : NumRange} {u : Unit}
    (h : assertClauseLen cl r = .ok u) : r.holds cl.length = true := by
  unfold assertClauseLen at h
  split at h
  · assumption
  · exact Except.noConfusion h

theorem assertClauseLen_error {cl : List Term} {r : NumRange}
    (h : ¬ r.holds cl.length = true) :
    assertClauseLen cl r = .error (.wrongLengthOfClause r cl.length) := by
  unfold assertClauseLen
  split
  · rename_i h'
    exact absurd h' h
  · rfl

theorem numRange_exact_one {n : Nat} (h : NumRange.holds ⟨1, some 1⟩ n = true) : n = 1 := by
  simp [NumRange.holds] at h
  omega

/-- The premise-processing function of `trans` succeeds exactly on unit
equality clauses. -/
theorem transPremiseFun_ok {pr : Premise} {e : Term × Term}
    (h : (do matchEq (← getPremiseTerm pr) : Except (CheckerError Term) (Term × Term)) = .ok e) :
    pr.clause = [eqT e.1 e.2] := by
  obtain ⟨t, ht, he⟩ := except_bind_ok h
  obtain ⟨a, b⟩ := e
  rw [getPremiseTerm_ok ht, matchEq_ok he]

theorem trans_ok_elim {args : RuleArgs} (h : Checker.trans args = .ok ()) :
    ∃ a b prems qs, args.conclusion = [eqT a b] ∧
      List.Forall₂ (fun pr e => pr.clause = [eqT e.1 e.2]) args.premises prems ∧
      findChain (a, b) prems = .ok qs := by
  unfold Checker.trans at h
  obtain ⟨u, hu, h⟩ := except_bind_ok h
  obtain ⟨⟨a, b⟩, hab, h⟩ := except_bind_ok h
  obtain ⟨prems, hprems, h⟩ := except_bind_ok h
  obtain ⟨qs, hqs, -⟩ := except_bind_ok h
  have hlen : args.conclusion.length = 1 := numRange_exact_one (assertClauseLen_ok hu)
  have hconc : args.conclusion = [args.conclusion.headD default] := by
    cases hc : args.conclusion with
    | nil => rw [hc] at hlen; simp at hlen
    | cons c cs =>
      rw [hc] at hlen
      simp at hlen
      simp [hlen]
  refine ⟨a, b, prems, qs, ?_, ?_, hqs⟩
  · rw [hconc, matchEq_ok hab]
  · exact (mapM_ok_forall₂ _ _ _ hprems).imp (fun _ _ hpr => transPremiseFun_ok hpr)

theorem eqTransitive_ok_elim {args : RuleArgs} (h : eqTransitive args = .ok ()) :
    ∃ a b prems qs, args.conclusion.getLast? = some (eqT a b) ∧
      List.Forall₂ (fun t e => t = notT (eqT e.1 e.2)) args.conclusion.dropLast prems ∧
      findChain (a, b) prems = .ok qs := by
  unfold eqTransitive at h
  obtain ⟨u, hu, h⟩ := except_bind_ok h
  obtain ⟨⟨a, b⟩, hab, h⟩ := except_bind_ok h
  obtain ⟨prems, hprems, h⟩ := except_bind_ok h
  obtain ⟨qs, hqs, -⟩ := except_bind_ok h
  have hlen : NumRange.holds ⟨3, none⟩ args.conclusion.length = true := assertClauseLen_ok hu
  have hne : args.conclusion ≠ [] := by
    intro hc
    rw [hc] at hlen
    simp [NumRange.holds] at hlen
  refine ⟨a, b, prems, qs, ?_, ?_, hqs⟩
  · obtain ⟨x, hx⟩ := Option.isSome_iff_exists.mp (List.getLast?_isSome.mpr hne)
    rw [hx] at hab ⊢
    simp only [Option.getD_some] at hab
    rw [matchEq_ok hab]
  · exact (mapM_ok_forall₂ _ _ _ hprems).imp (fun _ _ hpr => matchNotEq_ok hpr)

theorem assertClauseLen_ok_of {cl : List Term} {r : NumRange}
    (h : r.holds cl.length = true) : assertClauseLen cl r = .ok () := by
  unfold assertClauseLen
  split
  · rfl
  · rename_i h'
    exact absurd h h'

theorem getPremiseTerm_ok_of {pr : Premise} {t : Term} (h : pr.clause = [t]) :
    getPremiseTerm pr = .ok t := by
  unfold getPremiseTerm
  split
  · rename_i t' heq
    rw [h] at heq
    injection heq with h1
    rw [h1]
  · rename_i heq
    exact absurd (heq t h) (by simp)

theorem trans_conclusion_error {args : RuleArgs}
    (h : ¬ ∃ a b, args.conclusion = [eqT a b]) :
    ∃ e, Checker.trans args = .error e := by
  unfold Checker.trans
  by_cases hlen : args.conclusion.length = 1
  · have hconc : args.conclusion = [args.conclusion.headD default] := by
      cases hc : args.conclusion with
      | nil => rw [hc] at hlen; simp at hlen
      | cons c cs =>
        rw [hc] at hlen
        simp at hlen
        simp [hlen]
    have h1 : assertClauseLen args.conclusion ⟨1, some 1⟩ = .ok () :=
      assertClauseLen_ok_of (by simp [NumRange.holds, hlen])
    rw [except_bind_ok_cont _ h1]
    have h2 : ¬ ∃ a b, args.conclusion.headD default = eqT a b := by
      rintro ⟨a, b, hab⟩
      exact h ⟨a, b, by rw [hconc, hab]⟩
    rw [except_bind_error _ _ (matchEq_not_ok h2)]
    exact ⟨_, rfl⟩
  · have h1 : assertClauseLen args.conclusion ⟨1, some 1⟩ =
        .error (.wrongLengthOfClause ⟨1, some 1⟩ args.conclusion.length) :=
      assertClauseLen_error (by simp [NumRange.holds]; omega)
    rw [except_bind_error _ _ h1]
    exact ⟨_, rfl⟩

theorem trans_premise_error {args : RuleArgs} {a b : Term}
    (hc : args.conclusion = [eqT a b]) (k : Nat) (hk : k < args.premises.length)
    (hprev : ∀ j (hj : j < k), ∃ x y,
      (args.premises.get ⟨j, Nat.lt_trans hj hk⟩).clause = [eqT x y])
    (hbad : (args.premises.get ⟨k, hk⟩).clause.length ≠ 1) :
    Checker.trans args = .error (.wrongLengthOfPremiseClause
      (args.premises.get ⟨k, hk⟩).index ⟨1, some 1⟩
      (args.premises.get ⟨k, hk⟩).clause.length) := by
  unfold Checker.trans
  have h1 : assertClauseLen args.conclusion ⟨1, some 1⟩ = .ok () :=
    assertClauseLen_ok_of (by simp [NumRange.holds, hc])
  rw [except_bind_ok_cont _ h1]
  have h2 : matchEq (args.conclusion.headD default) = .ok (a, b) := by
    rw [hc]; rfl
  rw [except_bind_ok_cont _ h2]
  have h3 : args.premises.mapM (fun premise => do matchEq (← getPremiseTerm premise)) =
      .error (.wrongLengthOfPremiseClause (args.premises.get ⟨k, hk⟩).index ⟨1, some 1⟩
        (args.premises.get ⟨k, hk⟩).clause.length) := by
    refine mapM_error_at _ _ k _ ?_ hk ?_
    · intro j hj hx
      obtain ⟨x, y, hxy⟩ := hprev j hj
      refine ⟨(x, y), ?_⟩
      rw [except_bind_ok_cont _ (getPremiseTerm_ok_of hxy)]
      rfl
    · exact except_bind_error _ _ (getPremiseTerm_error hbad)
  rw [except_bind_error _ _ h3]

/-! ## Claim theorems: the transitivity checkers -/

/-- C1 (amended): `find_chain`-based acceptance is only a one-way guarantee:
when `trans` (resp. `eq_transitive`) succeeds, the premise equalities
(resp. the negated-equality literals) can be permuted so that a prefix,
each pair individually oriented, forms a chain from the conclusion's left
term to its right term; premises beyond that prefix need not be covered,
and the converse (existence of such a chain implies success) does not hold,
the search being greedy first-match. -/
theorem C1_trans_eqTransitive_accept_only_if_prefix_chain (args : RuleArgs) :
    (Checker.trans args = .ok () →
      ∃ a b prems qs k, args.conclusion = [eqT a b] ∧
        List.Forall₂ (fun pr e => pr.clause = [eqT e.1 e.2]) args.premises prems ∧
        qs.Perm prems ∧ k ≤ qs.length ∧ isOrientedChain a b (List.take k qs) = true) ∧
    (eqTransitive args = .ok () →
      ∃ a b prems qs k, args.conclusion.getLast? = some (eqT a b) ∧
        List.Forall₂ (fun t e => t = notT (eqT e.1 e.2)) args.conclusion.dropLast prems ∧
        qs.Perm prems ∧ k ≤ qs.length ∧ isOrientedChain a b (List.take k qs) = true) := by
  constructor
  · intro h
    obtain ⟨a, b, prems, qs, hc, hf, hchain⟩ := trans_ok_elim h
    obtain ⟨hperm, k, hk, hcp⟩ := findChain_ok hchain
    exact ⟨a, b, prems, qs, k, hc, hf, hperm, hk, hcp⟩
  · intro h
    obtain ⟨a, b, prems, qs, hc, hf, hchain⟩ := eqTransitive_ok_elim h
    obtain ⟨hperm, k, hk, hcp⟩ := findChain_ok hchain
    exact ⟨a, b, prems, qs, k, hc, hf, hperm, hk, hcp⟩

/-- C1 counterexample to the claim as stated: (i) `trans` succeeds on a
reflexive conclusion with a premise that no ordering and orientation of all
premises can arrange into a chain (so "ok iff a subset covering all premises
forms a chain" fails right-to-left as a covering requirement), and
(ii) `find_chain` fails although a subset of the premises does form a chain
from `lhs` to `rhs` (so the "iff" also fails left-to-right even without the
covering requirement: the greedy search commits to the first match). -/
theorem C1_counterexample :
    (Checker.trans (mkArgs [eqT (cT 0) (cT 0)] [⟨[eqT (cT 1) (cT 2)], "h1"⟩]) = .ok () ∧
      existsCoveringChain (cT 0) (cT 0) [(cT 1, cT 2)] = false) ∧
    (findChain ((0 : Nat), 1) [(0, 2), (0, 1)] = .error (.brokenTransitivityChain 2 1) ∧
      existsPrefixChain (0 : Nat) 1 [(0, 2), (0, 1)] = true) := by
  decide

/-- C1 witness: a successful `trans` run together with the prefix-chain
consequence delivered by the amended claim. -/
theorem C1_witness :
    Checker.trans (mkArgs [eqT (cT 0) (cT 2)]
      [⟨[eqT (cT 0) (cT 1)], "h1"⟩, ⟨[eqT (cT 1) (cT 2)], "h2"⟩]) = .ok () ∧
    (∃ a b prems qs k,
      (mkArgs [eqT (cT 0) (cT 2)]
        [⟨[eqT (cT 0) (cT 1)], "h1"⟩, ⟨[eqT (cT 1) (cT 2)], "h2"⟩]).conclusion = [eqT a b] ∧
      List.Forall₂ (fun pr e => pr.clause = [eqT e.1 e.2])
        (mkArgs [eqT (cT 0) (cT 2)]
          [⟨[eqT (cT 0) (cT 1)], "h1"⟩, ⟨[eqT (cT 1) (cT 2)], "h2"⟩]).premises prems ∧
      qs.Perm prems ∧ k ≤ qs.length ∧ isOrientedChain a b (List.take k qs) = true) :=
  ⟨by decide,
    (C1_trans_eqTransitive_accept_only_if_prefix_chain _).1 (by decide)⟩

/-- C2: whenever `find_chain` returns ok, the premise sequence has been
permuted so that some prefix of the result, read in order with each pair
taken in one of its two orientations, forms a chain whose endpoints are the
target's left and right terms. -/
theorem C2_findChain_ok_prefix_chain {α : Type} [DecidableEq α] (l r : α)
    (ps qs : List (α × α)) (h : findChain (l, r) ps = .ok qs) :
    qs.Perm ps ∧ ∃ k, k ≤ qs.length ∧ isOrientedChain l r (List.take k qs) = true :=
  findChain_ok h

/-- C2 witness: a concrete successful run, with the permutation and the
chain prefix it guarantees. -/
theorem C2_witness :
    findChain ((0 : Nat), 3) [(1, 0), (2, 1), (3, 2)] = .ok [(1, 0), (2, 1), (3, 2)] ∧
    (([(1, 0), (2, 1), (3, 2)] : List (Nat × Nat)).Perm [(1, 0), (2, 1), (3, 2)] ∧
      ∃ k, k ≤ ([(1, 0), (2, 1), (3, 2)] : List (Nat × Nat)).length ∧
        isOrientedChain 0 3 (List.take k [(1, 0), (2, 1), (3, 2)]) = true) :=
  ⟨by decide, C2_findChain_ok_prefix_chain 0 3 _ _ (by decide)⟩

/-- C9: `eq_transitive` reads only the conclusion clause of its argument
bundle, so two bundles with equal conclusions get identical verdicts
regardless of premises, arguments, pool, context, previous command,
discharge list, or timer. -/
theorem C9_eqTransitive_depends_only_on_conclusion (a b : RuleArgs)
    (h : a.conclusion = b.conclusion) : eqTransitive a = eqTransitive b := by
  unfold eqTransitive
  rw [h]

/-- C9 witness: two bundles differing in every field but the conclusion. -/
theorem C9_witness :
    eqTransitive (mkArgs [notT (eqT (cT 0) (cT 1)), notT (eqT (cT 1) (cT 2)),
      eqT (cT 0) (cT 2)] [⟨[eqT (cT 5) (cT 6)], "p"⟩]) =
    eqTransitive (RuleArgs.mk [notT (eqT (cT 0) (cT 1)), notT (eqT (cT 1) (cT 2)),
      eqT (cT 0) (cT 2)] [] [.term (cT 9)] Pool.new [[("x", cT 1)]]
      (some ⟨[cT 7], "q"⟩) [] 42) :=
  C9_eqTransitive_depends_only_on_conclusion _ _ rfl

/-- C6: `trans` errors unless its conclusion is a unit equality clause, and
— once the conclusion passes — if the premises are unit equalities up to
position `k` and the premise at `k` does not have a clause of length one,
`trans` returns `WrongLengthOfPremiseClause` carrying that premise's
identifier (errors are values; the first violation in premise order
short-circuits the rest). -/
theorem C6_trans_error_side (args : RuleArgs) :
    ((¬ ∃ a b, args.conclusion = [eqT a b]) → ∃ e, Checker.trans args = .error e) ∧
    (∀ a b, args.conclusion = [eqT a b] →
      ∀ k (hk : k < args.premises.length),
        (∀ j (hj : j < k), ∃ x y,
          (args.premises.get ⟨j, Nat.lt_trans hj hk⟩).clause = [eqT x y]) →
        (args.premises.get ⟨k, hk⟩).clause.length ≠ 1 →
        Checker.trans args = .error (.wrongLengthOfPremiseClause
          (args.premises.get ⟨k, hk⟩).index ⟨1, some 1⟩
          (args.premises.get ⟨k, hk⟩).clause.length)) := by
  refine ⟨trans_conclusion_error, ?_⟩
  intro a b hc k hk hprev hbad
  exact trans_premise_error hc k hk hprev hbad

/-- C6 witness: a malformed conclusion is rejected, and a second premise
with an empty clause produces `WrongLengthOfPremiseClause "h2"` even though
the broken chain would also be reported later. -/
theorem C6_witness :
    (¬ ∃ a b, (mkArgs [cT 0] []).conclusion = [eqT a b]) ∧
    (∃ e, Checker.trans (mkArgs [cT 0] []) = .error e) ∧
    Checker.trans (mkArgs [eqT (cT 0) (cT 2)]
        [⟨[eqT (cT 0) (cT 1)], "h1"⟩, ⟨[], "h2"⟩]) =
      .error (.wrongLengthOfPremiseClause "h2" ⟨1, some 1⟩ 0) := by
  refine ⟨?_, ?_, ?_⟩
  · rintro ⟨a, b, hab⟩
    have : cT 0 = eqT a b := by injection hab
    exact absurd this (by simp [cT, eqT])
  · refine (C6_trans_error_side (mkArgs [cT 0] [])).1 ?_
    rintro ⟨a, b, hab⟩
    have : cT 0 = eqT a b := by injection hab
    exact absurd this (by simp [cT, eqT])
  · have h := (C6_trans_error_side (mkArgs [eqT (cT 0) (cT 2)]
      [⟨[eqT (cT 0) (cT 1)], "h1"⟩, ⟨[], "h2"⟩])).2 (cT 0) (cT 2) rfl 1 (by decide)
      (fun j hj => ⟨cT 0, cT 1, by interval_cases j <;> rfl⟩) (by decide)
    simpa using h

/-- C8 (amended): a target with pool-identical sides succeeds immediately,
consuming nothing and leaving the premises unchanged; and in any successful
run the premises beyond the chain prefix are accepted and form the suffix of
the result, which holds exactly the unconsumed premises as a multiset — but
their relative order may change (the counterexample shows the swaps can
permute them). -/
theorem C8_reflexive_and_suffix_multiset {α : Type} [DecidableEq α] (l r : α)
    (ps qs : List (α × α)) :
    findChain (l, l) ps = .ok ps ∧
    (findChain (l, r) ps = .ok qs →
      ∃ k, k ≤ qs.length ∧ isOrientedChain l r (List.take k qs) = true ∧
        (↑(List.drop k qs) : Multiset (α × α)) = (↑ps : Multiset (α × α)) - ↑(List.take k qs)) := by
  refine ⟨findChain_refl l ps, ?_⟩
  intro h
  obtain ⟨hperm, k, hk, hcp⟩ := findChain_ok h
  refine ⟨k, hk, hcp, ?_⟩
  have hps : (↑ps : Multiset (α × α)) = ↑(List.take k qs) + ↑(List.drop k qs) := by
    have h1 : (↑ps : Multiset (α × α)) = ↑qs := Multiset.coe_eq_coe.mpr hperm.symm
    rw [h1]
    conv_lhs => rw [← List.take_append_drop k qs]
    simp
  rw [hps, add_tsub_cancel_left]

/-- C8 witness: the reflexive case and a successful run with one leftover
premise, instantiating the amended claim. -/
theorem C8_witness :
    findChain ((0 : Nat), 0) [(1, 2)] = .ok [(1, 2)] ∧
    (∃ k, k ≤ ([(0, 5), (3, 4), (1, 2)] : List (Nat × Nat)).length ∧
      isOrientedChain 0 5 (List.take k [(0, 5), (3, 4), (1, 2)]) = true ∧
      (↑(List.drop k [((0 : Nat), (5 : Nat)), (3, 4), (1, 2)]) : Multiset (Nat × Nat)) =
        (↑([(1, 2), (3, 4), (0, 5)] : List (Nat × Nat)) : Multiset (Nat × Nat)) -
          ↑(List.take k [((0 : Nat), (5 : Nat)), (3, 4), (1, 2)])) :=
  ⟨(C8_reflexive_and_suffix_multiset 0 0 [(1, 2)] []).1,
    (C8_reflexive_and_suffix_multiset 0 5 [(1, 2), (3, 4), (0, 5)]
      [(0, 5), (3, 4), (1, 2)]).2 (by decide)⟩

/-- C8 counterexample to "the unconsumed premises are left unpermuted": a
run that consumes only the chain prefix `[(0, 5)]` returns the two
unconsumed premises in the order `[(3, 4), (1, 2)]`, the reverse of their
relative order in the input. -/
theorem C8_counterexample :
    findChain ((0 : Nat), 5) [(1, 2), (3, 4), (0, 5)] = .ok [(0, 5), (3, 4), (1, 2)] ∧
    isOrientedChain (0 : Nat) 5 [(0, 5)] = true ∧
    List.drop 1 [((0 : Nat), (5 : Nat)), (3, 4), (1, 2)] ≠ [(1, 2), (3, 4)] := by
  decide

/-! ## Claim theorems: the schedule iterator -/

theorem popToDepth_spec :
    ∀ (stack : List (List CCommand)) (d : Nat), d < stack.length →
      ∃ f rest, popToDepth d stack = f :: rest ∧ rest.length = d ∧ (f :: rest) <:+ stack := by
  intro stack
  induction stack with
  | nil => intro d h; simp at h
  | cons s stack ih =>
    intro d h
    by_cases hd : stack.length = d
    · exact ⟨s, stack, by simp [popToDepth, hd], hd, List.suffix_refl _⟩
    · have hd' : d < stack.length := by
        simp only [List.length_cons] at h
        omega
      obtain ⟨f, rest, h1, h2, h3⟩ := ih d hd'
      exact ⟨f, rest, by simp [popToDepth, hd, h1], h2,
        h3.trans (List.suffix_cons s stack)⟩

/-- C5: one step of `ScheduleIter::next` on a nonexhausted iterator: a
coordinate whose offset is the sentinel `usize::MAX` yields the synthetic
closing command and leaves the frame stack unchanged; any other coordinate
`(d, i)` pops frames until the stack depth equals `d` (the popped stack is
the suffix of length `d + 1`), yields the command at offset `i` of the
then-top frame, and pushes that command's inner commands as a new frame
exactly when the command is a subproof. -/
theorem C5_scheduleIter_next_step (it : ScheduleIter) (d i : Nat)
    (h : it.stepId < it.steps.length) (hcur : it.steps.get ⟨it.stepId, h⟩ = (d, i)) :
    (i = usizeMax →
      it.next = .yielded .closing ⟨it.proofStack, it.steps, it.stepId + 1⟩) ∧
    (i ≠ usizeMax → d < it.proofStack.length →
      (popToDepth d it.proofStack).length = d + 1 ∧
      popToDepth d it.proofStack <:+ it.proofStack ∧
      ∀ f rest cmd, popToDepth d it.proofStack = f :: rest → f.get? i = some cmd →
        it.next = .yielded cmd ⟨(match cmd with
          | .subproof cmds aargs vargs => cmds :: f :: rest
          | _ => f :: rest), it.steps, it.stepId + 1⟩) := by
  have hcur' : it.steps[it.stepId] = (d, i) := by simpa using hcur
  constructor
  · intro hmax
    unfold ScheduleIter.next
    rw [dif_pos h]
    simp [hcur', hmax]
  · intro hmax hd
    obtain ⟨f₀, rest₀, hpop, hlen, hsuf⟩ := popToDepth_spec it.proofStack d hd
    refine ⟨by rw [hpop]; simp [hlen], by rw [hpop]; exact hsuf, ?_⟩
    intro f rest cmd hpop' hget
    rw [hpop] at hpop'
    injection hpop' with he1 he2
    subst he1; subst he2
    unfold ScheduleIter.next
    rw [dif_pos h]
    simp only [hcur, if_neg hmax, hpop, hget]
    cases cmd <;> rfl

/-- C5 witness: on a concrete two-level proof, a subproof coordinate pushes
the inner commands, and a sentinel coordinate yields the closing command
leaving the stack unchanged. -/
theorem C5_witness :
    (ScheduleIter.mk [[CCommand.assume "h1" (cT 0),
        CCommand.subproof [CCommand.assume "h2" (cT 1)] [] []]]
      [(0, 1), (1, 0), (0, usizeMax)] 0).next =
      .yielded (CCommand.subproof [CCommand.assume "h2" (cT 1)] [] [])
        ⟨[[CCommand.assume "h2" (cT 1)],
          [CCommand.assume "h1" (cT 0),
            CCommand.subproof [CCommand.assume "h2" (cT 1)] [] []]],
          [(0, 1), (1, 0), (0, usizeMax)], 1⟩ ∧
    (ScheduleIter.mk [[CCommand.assume "h2" (cT 1)],
        [CCommand.assume "h1" (cT 0),
          CCommand.subproof [CCommand.assume "h2" (cT 1)] [] []]]
      [(0, 1), (1, 0), (0, usizeMax)] 2).next =
      .yielded .closing
        ⟨[[CCommand.assume "h2" (cT 1)],
          [CCommand.assume "h1" (cT 0),
            CCommand.subproof [CCommand.assume "h2" (cT 1)] [] []]],
          [(0, 1), (1, 0), (0, usizeMax)], 3⟩ := by
  constructor
  · exact ((C5_scheduleIter_next_step (ScheduleIter.mk [[CCommand.assume "h1" (cT 0),
        CCommand.subproof [CCommand.assume "h2" (cT 1)] [] []]]
        [(0, 1), (1, 0), (0, usizeMax)] 0) 0 1 (by decide) rfl).2 (by decide)
      (by decide)).2.2 _ [] _ rfl rfl
  · exact (C5_scheduleIter_next_step (ScheduleIter.mk [[CCommand.assume "h2" (cT 1)],
        [CCommand.assume "h1" (cT 0),
          CCommand.subproof [CCommand.assume "h2" (cT 1)] [] []]]
        [(0, 1), (1, 0), (0, usizeMax)] 2) 0 usizeMax (by decide) rfl).1 rfl

/-! ## Lemmas about `reconstruct_chain` and the `symm`-step synthesis -/

theorem findLinkFlip_some_lt {l : Term} :
    ∀ {eqs : List (Term × Term)} {i : Nat} {next : Term} {flip : Bool},
      findLinkFlip l eqs = some (i, next, flip) → i < eqs.length := by
  intro eqs
  induction eqs with
  | nil => intro i next flip h; simp [findLinkFlip] at h
  | cons p ps ih =>
    intro i next flip h
    obtain ⟨t, u⟩ := p
    by_cases h1 : t = l
    · simp only [findLinkFlip, if_pos h1] at h
      injection h with h2
      injection h2 with h3 h4
      subst h3
      simp
    · by_cases h2 : u = l
      · simp only [findLinkFlip, if_neg h1, if_pos h2] at h
        injection h with h3
        injection h3 with h4 h5
        subst h4
        simp
      · simp only [findLinkFlip, if_neg h1, if_neg h2, Option.map_eq_some'] at h
        obtain ⟨⟨i', rest'⟩, hfl, heq⟩ := h
        injection heq with h3 h4
        subst h3
        have := ih hfl
        simp only [List.length_cons]
        omega

theorem forall₂_get {γ δ : Type} {R : γ → δ → Prop} :
    ∀ {as : List γ} {bs : List δ}, List.Forall₂ R as bs →
      ∀ {i : Nat} {a : γ} {b : δ}, as.get? i = some a → bs.get? i = some b → R a b := by
  intro as bs h
  induction h with
  | nil => intro i a b ha; simp at ha
  | cons hR hrest ih =>
    intro i a b ha hb
    cases i with
    | zero =>
      simp only [List.get?_cons_zero] at ha hb
      injection ha with ha
      injection hb with hb
      subst ha; subst hb
      exact hR
    | succ i =>
      simp only [List.get?_cons_succ] at ha hb
      exact ih ha hb

theorem forall₂_set {γ δ : Type} {R : γ → δ → Prop} :
    ∀ {as : List γ} {bs : List δ}, List.Forall₂ R as bs →
      ∀ {a : γ} {b : δ}, R a b → ∀ (i : Nat), List.Forall₂ R (as.set i a) (bs.set i b) := by
  intro as bs h
  induction h with
  | nil => intro a b hab i; simpa using List.Forall₂.nil
  | cons hR hrest ih =>
    intro a b hab i
    cases i with
    | zero => exact List.Forall₂.cons hab hrest
    | succ i => exact List.Forall₂.cons hR (ih hab i)

theorem forall₂_listSwap {γ δ : Type} {R : γ → δ → Prop} {as : List γ} {bs : List δ}
    (h : List.Forall₂ R as bs) (i : Nat) :
    List.Forall₂ R (listSwap as 0 i) (listSwap bs 0 i) := by
  by_cases hi : i < as.length
  · cases as with
    | nil => simp at hi
    | cons a t =>
      cases bs with
      | nil => cases h
      | cons b s =>
        have hR := (List.forall₂_cons.mp h).1
        have hrest := (List.forall₂_cons.mp h).2
        cases i with
        | zero => rw [listSwap_zero_zero, listSwap_zero_zero]; exact h
        | succ k =>
          have hk : k < t.length := by simpa using hi
          have hk' : k < s.length := by rw [← hrest.length_eq]; exact hk
          rw [listSwap_zero_succ a t k hk, listSwap_zero_succ b s k hk']
          refine List.Forall₂.cons ?_ (forall₂_set hrest hR k)
          exact forall₂_get hrest (List.get?_eq_get hk) (List.get?_eq_get hk')
  · have hlen := h.length_eq
    have h1 : as.get? i = none := List.get?_eq_none.mpr (by omega)
    have h2 : bs.get? i = none := List.get?_eq_none.mpr (by omega)
    have e1 : listSwap as 0 i = as := by
      unfold listSwap
      rw [h1]
      rcases as.get? 0 with _ | a <;> rfl
    have e2 : listSwap bs 0 i = bs := by
      unfold listSwap
      rw [h2]
      rcases bs.get? 0 with _ | b <;> rfl
    rw [e1, e2]
    exact h

/-- The data preserved by `reconstruct_chain` on success: the equalities and
premise records stay aligned (each premise's clause is the unit equality of
its pair), both are permuted in parallel, and at most one flip bit is pushed
per input equality. -/
theorem reconstructChainAux_ok :
    ∀ (fuel : Nat) (l r : Term) (eqs : List (Term × Term)) (prems : List Premise)
      (flips : List Bool) (eqs' : List (Term × Term)) (prems' : List Premise)
      (flips' : List Bool),
      List.Forall₂ (fun e pr => pr.clause = [eqT e.1 e.2]) eqs prems →
      reconstructChainAux fuel (l, r) eqs prems flips = .ok (eqs', prems', flips') →
      List.Forall₂ (fun e pr => pr.clause = [eqT e.1 e.2]) eqs' prems' ∧
      prems'.Perm prems ∧ eqs'.Perm eqs ∧
      flips'.length ≤ flips.length + eqs.length := by
  intro fuel
  induction fuel with
  | zero =>
    intro l r eqs prems flips eqs' prems' flips' hF h
    by_cases hlr : l = r
    · subst hlr
      simp only [reconstructChainAux, if_pos rfl] at h
      injection h with h1
      injection h1 with h2 h3
      injection h3 with h4 h5
      subst h2; subst h4; subst h5
      exact ⟨hF, List.Perm.refl _, List.Perm.refl _, by omega⟩
    · simp only [reconstructChainAux, if_neg hlr] at h
      exact Except.noConfusion h
  | succ fuel ih =>
    intro l r eqs prems flips eqs' prems' flips' hF h
    by_cases hlr : l = r
    · subst hlr
      simp only [reconstructChainAux, if_pos rfl] at h
      injection h with h1
      injection h1 with h2 h3
      injection h3 with h4 h5
      subst h2; subst h4; subst h5
      exact ⟨hF, List.Perm.refl _, List.Perm.refl _, by omega⟩
    · simp only [reconstructChainAux, if_neg hlr] at h
      split at h
      · exact Except.noConfusion h
      · rename_i i next flip hfl
        split at h
        · rename_i e eqs₀ pr prems₀ hsw1 hsw2
          split at h
          · rename_i es ps fs hrec
            injection h with h1
            injection h1 with h2 h3
            injection h3 with h4 h5
            subst h2; subst h4; subst h5
            have hi : i < eqs.length := findLinkFlip_some_lt hfl
            have hi' : i < prems.length := by rw [← hF.length_eq]; exact hi
            have hFsw : List.Forall₂ (fun e pr => pr.clause = [eqT e.1 e.2])
                (e :: eqs₀) (pr :: prems₀) := by
              rw [← hsw1, ← hsw2]
              exact forall₂_listSwap hF i
            have hR := (List.forall₂_cons.mp hFsw).1
            have hrest := (List.forall₂_cons.mp hFsw).2
            obtain ⟨hF', hpermP, hpermE, hflen⟩ :=
              ih next r eqs₀ prems₀ (flips ++ [flip]) es ps fs hrest hrec
            obtain ⟨e₁, rest₁, hsw₁, hget₁, hperm₁⟩ := listSwap_zero_spec eqs i hi
            rw [hsw1] at hsw₁
            injection hsw₁ with hh1 hh2
            subst hh1; subst hh2
            obtain ⟨p₁, rest₂, hsw₂, hget₂, hperm₂⟩ := listSwap_zero_spec prems i hi'
            rw [hsw2] at hsw₂
            injection hsw₂ with hh3 hh4
            subst hh3; subst hh4
            have hlen₀ : eqs₀.length + 1 = eqs.length := by
              have := hperm₁.length_eq
              simpa using this
            refine ⟨List.Forall₂.cons hR hF', (hpermP.cons pr).trans hperm₂,
              (hpermE.cons e).trans hperm₁, ?_⟩
            simp only [List.length_append, List.length_cons, List.length_nil] at hflen
            omega
          · exact Except.noConfusion h
        · exact Except.noConfusion h

theorem get?_set_ne {γ : Type} :
    ∀ (l : List γ) (x : γ) (i j : Nat), i ≠ j → (l.set i x).get? j = l.get? j := by
  intro l
  induction l with
  | nil => intro x i j h; simp
  | cons a t ih =>
    intro x i j h
    cases i with
    | zero =>
      cases j with
      | zero => exact absurd rfl h
      | succ j => simp
    | succ i =>
      cases j with
      | zero => simp
      | succ j => simpa using ih x i j (by omega)

theorem get?_set_self {γ : Type} :
    ∀ (l : List γ) (x : γ) (i : Nat), i < l.length → (l.set i x).get? i = some x := by
  intro l
  induction l with
  | nil => intro x i h; simp at h
  | cons a t ih =>
    intro x i h
    cases i with
    | zero => simp
    | succ i => simpa using ih x i (by simpa using h)

theorem getD_eq_get? {γ : Type} :
    ∀ (l : List γ) (n : Nat) (d : γ), l.getD n d = (l.get? n).getD d := by
  intro l
  induction l with
  | nil => intro n d; simp
  | cons a t ih =>
    intro n d
    cases n with
    | zero => simp
    | succ n => simpa using ih n d

theorem getD_of_get? {γ : Type} {l : List γ} {n : Nat} {a : γ} (h : l.get? n = some a)
    (d : γ) : l.getD n d = a := by
  rw [getD_eq_get?, h]
  rfl

/-- What the `symm`-synthesis loop produces, by induction over the flip
indices (strictly increasing, in range, and each naming a premise whose
clause is the unit equality of its pair): one `symm` step per index with the
advertised identifier, clause, and singleton premise list, while the premise
list keeps non-flipped slots unchanged and redirects flipped slots to the
corresponding synthesized step. -/
theorem buildSymmSteps_spec :
    ∀ (js : List Nat) (i : Nat) (prems : List Premise) (eqs : List (Term × Term))
      (cidx : String),
      List.Pairwise (· < ·) js →
      (∀ j ∈ js, j < prems.length ∧
        (prems.getD j default).clause =
          [eqT (eqs.getD j (default, default)).1 (eqs.getD j (default, default)).2]) →
      (buildSymmSteps cidx eqs i js prems).1.length = js.length ∧
      (buildSymmSteps cidx eqs i js prems).2.length = prems.length ∧
      (∀ m (hm : m < (buildSymmSteps cidx eqs i js prems).1.length), ∃ a b,
        (buildSymmSteps cidx eqs i js prems).1.get ⟨m, hm⟩ =
          .step ⟨cidx ++ ".t" ++ toString (i + m + 1), [eqT b a], "symm",
            [prems.getD (js.getD m 0) default], [], []⟩ ∧
        (prems.getD (js.getD m 0) default).clause = [eqT a b] ∧
        prems.getD (js.getD m 0) default ∈ prems) ∧
      (∀ m, m ∉ js → (buildSymmSteps cidx eqs i js prems).2.get? m = prems.get? m) ∧
      (∀ m, m ∈ js → ∃ k, ∃ hk : k < (buildSymmSteps cidx eqs i js prems).1.length,
        ∃ s : ProofStep, (buildSymmSteps cidx eqs i js prems).1.get ⟨k, hk⟩ = .step s ∧
        (buildSymmSteps cidx eqs i js prems).2.get? m = some ⟨s.clause, s.index⟩) := by
  intro js
  induction js with
  | nil =>
    intro i prems eqs cidx hpw hH
    refine ⟨rfl, rfl, ?_, ?_, ?_⟩
    · intro m hm; simp [buildSymmSteps] at hm
    · intro m _; rfl
    · intro m hm; simp at hm
  | cons j js ih =>
    intro i prems eqs cidx hpw hH
    obtain ⟨hjlt, hjcl⟩ := hH j (List.mem_cons_self j js)
    have hpw' := (List.pairwise_cons.mp hpw).2
    have hlt := (List.pairwise_cons.mp hpw).1
    set e := eqs.getD j (default, default) with he
    set newPrem : Premise :=
      ⟨[Term.op .equals (.cons e.2 (.cons e.1 .nil))], cidx ++ ".t" ++ toString (i + 1)⟩
      with hnp
    set prems₁ := prems.set j newPrem with hp1
    have hH' : ∀ j' ∈ js, j' < prems₁.length ∧
        (prems₁.getD j' default).clause =
          [eqT (eqs.getD j' (default, default)).1 (eqs.getD j' (default, default)).2] := by
      intro j' hj'
      obtain ⟨h1, h2⟩ := hH j' (List.mem_cons_of_mem _ hj')
      have hne : j ≠ j' := Nat.ne_of_lt (hlt j' hj')
      constructor
      · simpa [hp1] using h1
      · rw [hp1, getD_eq_get?, get?_set_ne _ _ _ _ hne, ← getD_eq_get?]
        exact h2
    have hjgen : ∀ m, m < js.length →
        prems₁.getD (js.getD m 0) default = prems.getD (js.getD m 0) default := by
      intro m hmm
      have hmem : js.getD m 0 ∈ js := by
        rw [getD_of_get? (List.get?_eq_get hmm)]
        exact List.get_mem js m hmm
      have hne : j ≠ js.getD m 0 := Nat.ne_of_lt (hlt _ hmem)
      rw [hp1, getD_eq_get?, get?_set_ne _ _ _ _ hne, ← getD_eq_get?]
    obtain ⟨ihlen, ihplen, ihsteps, ihkeep, ihref⟩ := ih (i + 1) prems₁ eqs cidx hpw' hH'
    have hunfold : buildSymmSteps cidx eqs i (j :: js) prems =
        (AProofCommand.step ⟨cidx ++ ".t" ++ toString (i + 1),
          [Term.op .equals (.cons e.2 (.cons e.1 .nil))], "symm",
          [prems.getD j default], [], []⟩ :: (buildSymmSteps cidx eqs (i + 1) js prems₁).1,
         (buildSymmSteps cidx eqs (i + 1) js prems₁).2) := by
      simp only [buildSymmSteps, hp1, hnp, he]
    rw [hunfold]
    refine ⟨by simpa using ihlen, by simpa [hp1] using ihplen, ?_, ?_, ?_⟩
    · intro m hm
      cases m with
      | zero =>
        refine ⟨e.1, e.2, by simp [eqT], by simpa using hjcl, ?_⟩
        simp only [List.getD_cons_zero]
        rw [getD_of_get? (List.get?_eq_get hjlt)]
        exact List.get_mem prems j hjlt
      | succ m =>
        have hm' : m < (buildSymmSteps cidx eqs (i + 1) js prems₁).1.length := by
          simpa using hm
        have hmm : m < js.length := by rw [← ihlen]; exact hm'
        obtain ⟨a, b, hstep, hcl, -⟩ := ihsteps m hm'
        have hjg := hjgen m hmm
        have harith : i + 1 + m + 1 = i + (m + 1) + 1 := by omega
        refine ⟨a, b, ?_, ?_, ?_⟩
        · simp only [List.get_cons_succ, List.getD_cons_succ, hstep, hjg, harith]
        · simp only [List.getD_cons_succ]
          rw [← hjg]
          exact hcl
        · simp only [List.getD_cons_succ]
          have hjsm : js.getD m 0 ∈ js := by
            rw [getD_of_get? (List.get?_eq_get hmm)]
            exact List.get_mem js m hmm
          have hjb := (hH _ (List.mem_cons_of_mem _ hjsm)).1
          rw [getD_of_get? (List.get?_eq_get hjb)]
          exact List.get_mem prems _ hjb
    · intro m hm
      have hm1 : m ∉ js := fun hx => hm (List.mem_cons_of_mem _ hx)
      have hm2 : m ≠ j := fun hx => hm (hx ▸ List.mem_cons_self j js)
      rw [ihkeep m hm1, hp1, get?_set_ne _ _ _ _ (fun hx => hm2 hx.symm)]
    · intro m hm
      rcases List.mem_cons.mp hm with hmj | hmjs
      · subst hmj
        have hmnotin : m ∉ js := fun hx => absurd (hlt m hx) (by omega)
        refine ⟨0, by simp, _, rfl, ?_⟩
        rw [ihkeep m hmnotin, hp1, get?_set_self _ _ _ hjlt]
      · obtain ⟨k, hk, s, hstep, href⟩ := ihref m hmjs
        exact ⟨k + 1, by simpa using hk, s, by simpa using hstep, href⟩

theorem flipIdx_pairwise_bound :
    ∀ (l : List Bool) (n : Nat),
      List.Pairwise (· < ·)
        ((List.enumFrom n l).filterMap (fun ib => if ib.2 then some ib.1 else none)) ∧
      ∀ j ∈ (List.enumFrom n l).filterMap (fun ib => if ib.2 then some ib.1 else none),
        n ≤ j ∧ j < n + l.length := by
  intro l
  induction l with
  | nil => intro n; simp
  | cons b bs ih =>
    intro n
    obtain ⟨ihp, ihb⟩ := ih (n + 1)
    cases b with
    | false =>
      have hred : (List.enumFrom n (false :: bs)).filterMap
          (fun ib => if ib.2 then some ib.1 else none) =
          (List.enumFrom (n + 1) bs).filterMap
            (fun ib => if ib.2 then some ib.1 else none) := by
        simp [List.enumFrom_cons, List.filterMap_cons]
      rw [hred]
      refine ⟨ihp, ?_⟩
      intro j hj
      have := ihb j hj
      constructor
      · omega
      · simp only [List.length_cons]; omega
    | true =>
      have hred : (List.enumFrom n (true :: bs)).filterMap
          (fun ib => if ib.2 then some ib.1 else none) =
          n :: (List.enumFrom (n + 1) bs).filterMap
            (fun ib => if ib.2 then some ib.1 else none) := by
        simp [List.enumFrom_cons, List.filterMap_cons]
      rw [hred]
      refine ⟨List.pairwise_cons.mpr ⟨?_, ihp⟩, ?_⟩
      · intro j hj
        have := ihb j hj
        omega
      · intro j hj
        rcases List.mem_cons.mp hj with rfl | hj'
        · constructor
          · omega
          · simp only [List.length_cons]; omega
        · have := ihb j hj'
          constructor
          · omega
          · simp only [List.length_cons]; omega

theorem flips_filterMap_nil :
    ∀ (l : List Bool) (n : Nat),
      ((List.enumFrom n l).filterMap (fun ib => if ib.2 then some ib.1 else none) = []) ↔
        ∀ b ∈ l, b = false := by
  intro l
  induction l with
  | nil => intro n; simp
  | cons b bs ih =>
    intro n
    cases b with
    | false =>
      have hred : (List.enumFrom n (false :: bs)).filterMap
          (fun ib => if ib.2 then some ib.1 else none) =
          (List.enumFrom (n + 1) bs).filterMap
            (fun ib => if ib.2 then some ib.1 else none) := by
        simp [List.enumFrom_cons, List.filterMap_cons]
      rw [hred, ih (n + 1)]
      simp
    | true =>
      have hred : (List.enumFrom n (true :: bs)).filterMap
          (fun ib => if ib.2 then some ib.1 else none) =
          n :: (List.enumFrom (n + 1) bs).filterMap
            (fun ib => if ib.2 then some ib.1 else none) := by
        simp [List.enumFrom_cons, List.filterMap_cons]
      rw [hred]
      simp

theorem reconstructTrans_ok_elim {args : RuleArgs} {cidx : String} {depth : Nat}
    {cmd : AProofCommand} (h : reconstructTrans args cidx depth = .ok cmd) :
    ∃ a b premEqs eqs newPrems flips,
      args.conclusion = [eqT a b] ∧
      List.Forall₂ (fun pr e => pr.clause = [eqT e.1 e.2]) args.premises premEqs ∧
      reconstructChainAux premEqs.length (a, b) premEqs args.premises [] =
        .ok (eqs, newPrems, flips) ∧
      ((flips.enum.filterMap (fun ib => if ib.2 then some ib.1 else none) = [] →
        cmd = .step ⟨cidx, args.conclusion, "trans", newPrems, [], []⟩) ∧
       (flips.enum.filterMap (fun ib => if ib.2 then some ib.1 else none) ≠ [] →
        cmd = .subproof
          ((buildSymmSteps cidx eqs 0
            (flips.enum.filterMap (fun ib => if ib.2 then some ib.1 else none)) newPrems).1 ++
            [.step ⟨cidx, args.conclusion, "trans",
              (buildSymmSteps cidx eqs 0
                (flips.enum.filterMap (fun ib => if ib.2 then some ib.1 else none))
                newPrems).2, [], []⟩]) [] [])) := by
  unfold reconstructTrans at h
  obtain ⟨u, hu, h⟩ := except_bind_ok h
  obtain ⟨⟨a, b⟩, hab, h⟩ := except_bind_ok h
  obtain ⟨premEqs, hpremEqs, h⟩ := except_bind_ok h
  have hlen : args.conclusion.length = 1 := numRange_exact_one (assertClauseLen_ok hu)
  have hconc : args.conclusion = [eqT a b] := by
    have hx : args.conclusion = [args.conclusion.headD default] := by
      cases hc : args.conclusion with
      | nil => rw [hc] at hlen; simp at hlen
      | cons c cs =>
        rw [hc] at hlen
        simp at hlen
        simp [hlen]
    rw [hx, matchEq_ok hab]
  have hF : List.Forall₂ (fun pr e => pr.clause = [eqT e.1 e.2]) args.premises premEqs :=
    (mapM_ok_forall₂ _ _ _ hpremEqs).imp (fun _ _ hpr => transPremiseFun_ok hpr)
  split at h
  · exact Except.noConfusion h
  · rename_i eqs newPrems flips hrec
    refine ⟨a, b, premEqs, eqs, newPrems, flips, hconc, hF, hrec, ?_, ?_⟩
    · intro hsf
      rw [if_pos hsf] at h
      injection h with h1
      exact h1.symm
    · intro hsf
      rw [if_neg hsf] at h
      injection h with h1
      exact h1.symm

/-! ## Claim theorems: the `trans` elaborator -/

theorem forall₂_flip {γ δ : Type} {R : γ → δ → Prop} :
    ∀ {as : List γ} {bs : List δ}, List.Forall₂ R as bs →
      List.Forall₂ (fun b a => R a b) bs as := by
  intro as bs h
  induction h with
  | nil => exact List.Forall₂.nil
  | cons hR _ ih => exact List.Forall₂.cons hR ih

theorem enum_eq_enumFrom {γ : Type} (l : List γ) : l.enum = List.enumFrom 0 l := rfl

/-- C3: shape of every successful `reconstruct_trans` output.  The chain
discovery returns the premise pairs `eqs`, the reordered premises
`newPrems`, and the orientation bits `flips` (`true` marks a premise matched
on its right side).  If no bit is set the output is a single step with the
same clause, rule `trans`, and the reordered premise list; otherwise it is a
subproof with empty assignment- and variable-argument lists whose body is
one `symm` step per set bit — singleton premise list, clause the orientation
swap of that premise's equality, fresh identifier `<step>.t<k>` — followed
by the final `trans` step whose premise list keeps unflipped premises
unchanged and references the synthesized steps in place of the flipped
ones. -/
theorem C3_reconstructTrans_output_shape (args : RuleArgs) (cidx : String) (depth : Nat)
    (cmd : AProofCommand) (h : reconstructTrans args cidx depth = .ok cmd) :
    ∃ a b premEqs eqs newPrems flips, ∃ shouldFlip : List Nat,
      shouldFlip = flips.enum.filterMap (fun ib => if ib.2 then some ib.1 else none) ∧
      args.conclusion = [eqT a b] ∧
      List.Forall₂ (fun pr e => pr.clause = [eqT e.1 e.2]) args.premises premEqs ∧
      reconstructChainAux premEqs.length (a, b) premEqs args.premises [] =
        .ok (eqs, newPrems, flips) ∧
      (shouldFlip = [] ↔ ∀ bit ∈ flips, bit = false) ∧
      newPrems.Perm args.premises ∧
      (shouldFlip = [] → cmd = .step ⟨cidx, args.conclusion, "trans", newPrems, [], []⟩) ∧
      (shouldFlip ≠ [] → ∃ body finalPrems,
        cmd = .subproof
          (body ++ [.step ⟨cidx, args.conclusion, "trans", finalPrems, [], []⟩]) [] [] ∧
        body.length = shouldFlip.length ∧ 1 ≤ body.length ∧
        finalPrems.length = args.premises.length ∧
        (∀ m (hm : m < body.length), ∃ x y oldPrem,
          body.get ⟨m, hm⟩ = .step ⟨cidx ++ ".t" ++ toString (m + 1), [eqT y x], "symm",
            [oldPrem], [], []⟩ ∧ oldPrem.clause = [eqT x y] ∧ oldPrem ∈ args.premises) ∧
        (∀ m, m ∉ shouldFlip → finalPrems.get? m = newPrems.get? m) ∧
        (∀ m, m ∈ shouldFlip → ∃ k, ∃ hk : k < body.length, ∃ s : ProofStep,
          body.get ⟨k, hk⟩ = .step s ∧ finalPrems.get? m = some ⟨s.clause, s.index⟩)) := by
  obtain ⟨a, b, premEqs, eqs, newPrems, flips, hconc, hF, hrec, hnil, hcons⟩ :=
    reconstructTrans_ok_elim h
  obtain ⟨hFout, hpermP, hpermE, hflen⟩ :=
    reconstructChainAux_ok premEqs.length a b premEqs args.premises [] eqs newPrems flips
      (forall₂_flip hF) hrec
  have hlenPE : args.premises.length = premEqs.length := hF.length_eq
  have hlenNP : newPrems.length = args.premises.length := hpermP.length_eq
  have hlenE : eqs.length = premEqs.length := hpermE.length_eq
  have hlenEN : eqs.length = newPrems.length := hFout.length_eq
  obtain ⟨hpw, hbound⟩ := flipIdx_pairwise_bound flips 0
  rw [← enum_eq_enumFrom] at hpw hbound
  refine ⟨a, b, premEqs, eqs, newPrems, flips, _, rfl, hconc, hF, hrec, ?_, hpermP, hnil, ?_⟩
  · rw [enum_eq_enumFrom]
    exact flips_filterMap_nil flips 0
  · intro hsf
    have hjs : ∀ j ∈ flips.enum.filterMap (fun ib => if ib.2 then some ib.1 else none),
        j < newPrems.length ∧
        (newPrems.getD j default).clause =
          [eqT (eqs.getD j (default, default)).1 (eqs.getD j (default, default)).2] := by
      intro j hj
      have hjb := hbound j hj
      have hjlt : j < newPrems.length := by
        simp only [List.length_nil] at hflen
        omega
      have hjlt' : j < eqs.length := by omega
      refine ⟨hjlt, ?_⟩
      have := forall₂_get hFout (List.get?_eq_get hjlt') (List.get?_eq_get hjlt)
      rw [getD_of_get? (List.get?_eq_get hjlt'), getD_of_get? (List.get?_eq_get hjlt)]
      exact this
    obtain ⟨hblen, hplen, hsteps, hkeep, href⟩ :=
      buildSymmSteps_spec (flips.enum.filterMap (fun ib => if ib.2 then some ib.1 else none))
        0 newPrems eqs cidx hpw hjs
    refine ⟨_, _, hcons hsf, hblen, ?_, by rw [hplen, hlenNP], ?_, hkeep, href⟩
    · rcases hx : flips.enum.filterMap (fun ib => if ib.2 then some ib.1 else none) with
        _ | ⟨y, ys⟩
      · exact absurd hx hsf
      · rw [hblen, hx]
        simp
    · intro m hm
      obtain ⟨x, y, hstep, hcl, hmem⟩ := hsteps m hm
      have harith : 0 + m + 1 = m + 1 := by omega
      rw [harith] at hstep
      exact ⟨x, y, _, hstep, hcl, (hpermP.mem_iff).mp hmem⟩

/-- C10: the emitted final `trans` step carries the original step identifier
passed in as `command_index`, both as the single emitted step and as the
last command of the emitted subproof. -/
theorem C10_reconstructTrans_keeps_index (args : RuleArgs) (cidx : String) (depth : Nat)
    (cmd : AProofCommand) (h : reconstructTrans args cidx depth = .ok cmd) :
    (∃ s : ProofStep, cmd = .step s ∧ s.index = cidx ∧ s.rule = "trans") ∨
    (∃ cmds aargs vargs, cmd = .subproof cmds aargs vargs ∧
      ∃ s : ProofStep, cmds.getLast? = some (.step s) ∧ s.index = cidx ∧ s.rule = "trans") := by
  obtain ⟨a, b, premEqs, eqs, newPrems, flips, hconc, hF, hrec, hnil, hcons⟩ :=
    reconstructTrans_ok_elim h
  by_cases hsf : flips.enum.filterMap (fun ib => if ib.2 then some ib.1 else none) = []
  · exact Or.inl ⟨_, hnil hsf, rfl, rfl⟩
  · refine Or.inr ⟨_, _, _, hcons hsf,
      ⟨cidx, args.conclusion, "trans",
        (buildSymmSteps cidx eqs 0
          (flips.enum.filterMap (fun ib => if ib.2 then some ib.1 else none)) newPrems).2,
        [], []⟩, ?_, rfl, rfl⟩
    exact List.getLast?_concat _

/-- Witness for C3: the shape theorem applied to a run with one flipped
premise, whose output subproof is computed concretely. -/
theorem C3_witness :
    ∃ a b premEqs eqs newPrems flips, ∃ shouldFlip : List Nat,
      shouldFlip = flips.enum.filterMap (fun ib => if ib.2 then some ib.1 else none) ∧
      c3Args.conclusion = [eqT a b] ∧
      List.Forall₂ (fun pr e => pr.clause = [eqT e.1 e.2]) c3Args.premises premEqs ∧
      reconstructChainAux premEqs.length (a, b) premEqs c3Args.premises [] =
        .ok (eqs, newPrems, flips) ∧
      (shouldFlip = [] ↔ ∀ bit ∈ flips, bit = false) ∧
      newPrems.Perm c3Args.premises ∧
      (shouldFlip = [] → c3Cmd = .step ⟨"t1", c3Args.conclusion, "trans", newPrems, [], []⟩) ∧
      (shouldFlip ≠ [] → ∃ body finalPrems,
        c3Cmd = .subproof
          (body ++ [.step ⟨"t1", c3Args.conclusion, "trans", finalPrems, [], []⟩]) [] [] ∧
        body.length = shouldFlip.length ∧ 1 ≤ body.length ∧
        finalPrems.length = c3Args.premises.length ∧
        (∀ m (hm : m < body.length), ∃ x y oldPrem,
          body.get ⟨m, hm⟩ = .step ⟨"t1" ++ ".t" ++ toString (m + 1), [eqT y x], "symm",
            [oldPrem], [], []⟩ ∧ oldPrem.clause = [eqT x y] ∧ oldPrem ∈ c3Args.premises) ∧
        (∀ m, m ∉ shouldFlip → finalPrems.get? m = newPrems.get? m) ∧
        (∀ m, m ∈ shouldFlip → ∃ k, ∃ hk : k < body.length, ∃ s : ProofStep,
          body.get ⟨k, hk⟩ = .step s ∧ finalPrems.get? m = some ⟨s.clause, s.index⟩)) :=
  C3_reconstructTrans_output_shape c3Args "t1" 0 c3Cmd rfl

/-- Witness for C10: the same concrete run, whose subproof's last command is
the `trans` step indexed by the original identifier. -/
theorem C10_witness :
    (∃ s : ProofStep, c3Cmd = .step s ∧ s.index = "t1" ∧ s.rule = "trans") ∨
    (∃ cmds aargs vargs, c3Cmd = .subproof cmds aargs vargs ∧
      ∃ s : ProofStep, cmds.getLast? = some (.step s) ∧ s.index = "t1" ∧ s.rule = "trans") :=
  C10_reconstructTrans_keeps_index c3Args "t1" 0 c3Cmd rfl

/-! ## Lemmas about the pool: interning -/

theorem idxOf?_get? {β : Type} [DecidableEq β] (x : β) :
    ∀ (l : List β) (i : Nat), idxOf? x l = some i → l.get? i = some x := by
  intro l
  induction l with
  | nil => intro i h; simp [idxOf?] at h
  | cons y ys ih =>
    intro i h
    by_cases hy : y = x
    · simp only [idxOf?, if_pos hy] at h
      injection h with h1
      subst h1
      subst hy
      rfl
    · simp only [idxOf?, if_neg hy, Option.map_eq_some'] at h
      obtain ⟨j, hj, hji⟩ := h
      subst hji
      simpa using ih j hj

theorem idxOf?_append {β : Type} [DecidableEq β] (x : β) :
    ∀ (l l' : List β) (i : Nat), idxOf? x l = some i → idxOf? x (l ++ l') = some i := by
  intro l
  induction l with
  | nil => intro l' i h; simp [idxOf?] at h
  | cons y ys ih =>
    intro l' i h
    by_cases hy : y = x
    · simp only [idxOf?, if_pos hy] at h ⊢
      exact h
    · simp only [List.cons_append, idxOf?, if_neg hy, Option.map_eq_some'] at h ⊢
      obtain ⟨j, hj, hji⟩ := h
      exact ⟨j, ih l' j hj, hji⟩

theorem idxOf?_append_self {β : Type} [DecidableEq β] (x : β) :
    ∀ (l : List β), idxOf? x l = none → idxOf? x (l ++ [x]) = some l.length := by
  intro l
  induction l with
  | nil => intro _; simp [idxOf?]
  | cons y ys ih =>
    intro h
    by_cases hy : y = x
    · simp [idxOf?, if_pos hy] at h
    · simp only [idxOf?, if_neg hy, Option.map_eq_none'] at h
      simp only [List.cons_append, idxOf?, if_neg hy, List.length_cons]
      rw [List.append_eq, ih h]
      rfl

theorem intern_idxOf {p : Pool} {t : Term} {r : Nat} {p₁ : Pool}
    (h : intern p t = (r, p₁)) :
    idxOf? t p₁.terms = some r ∧ ∃ ext, p₁.terms = p.terms ++ ext := by
  unfold intern at h
  split at h
  · rename_i i hi
    injection h with h1 h2
    subst h1; subst h2
    exact ⟨hi, [], by simp⟩
  · rename_i hn
    injection h with h1 h2
    subst h1; subst h2
    exact ⟨idxOf?_append_self t p.terms hn, [t], rfl⟩

/-! ## Lemmas about the sort cache -/

theorem option_get_eq {γ : Type} {x : Option γ} {s : γ} (h : x = some s) (hc : x.isSome) :
    x.get hc = s := by
  subst h; rfl

theorem lookupSort_insert (p : Pool) (t : Term) (s : SortT) (u : Term) :
    lookupSort (insertSort p t s) u = if t = u then some s else lookupSort p u := by
  unfold lookupSort insertSort
  by_cases hut : t = u
  · rw [if_pos hut, List.find?_cons_of_pos]
    · rfl
    · simp [hut]
  · rw [if_neg hut, List.find?_cons_of_neg]
    simp [hut]

theorem lookupSort_insert_self (p : Pool) (t : Term) (s : SortT) :
    lookupSort (insertSort p t s) t = some s := by
  rw [lookupSort_insert, if_pos rfl]

theorem valid_insertSort {p : Pool} {t : Term} {s : SortT}
    (hv : p.Valid) (hs : sortOf t = some s) : (insertSort p t s).Valid := by
  intro u su hu
  rw [lookupSort_insert] at hu
  split at hu
  · rename_i hut
    injection hu with h1
    subst hut; subst h1
    exact hs
  · exact hv u su hu

theorem valid_terms {p : Pool} (ts : List Term) (hv : p.Valid) :
    Pool.Valid { p with terms := ts } :=
  fun u su hu => hv u su hu

theorem addSortTerm_ext_valid (p : Pool) (s : SortT) :
    (∃ ext, (addSortTerm p s).terms = p.terms ++ ext) ∧
    (p.Valid → (addSortTerm p s).Valid) := by
  rcases hidx : idxOf? (Term.sort s) p.terms with _ | i
  · simp only [addSortTerm, intern, hidx]
    rcases hl : lookupSort { p with terms := p.terms ++ [Term.sort s] } (Term.sort s) with _ | s'
    · simp only [hl]
      exact ⟨⟨[Term.sort s], rfl⟩, fun hv => valid_insertSort (valid_terms _ hv) rfl⟩
    · simp only [hl]
      exact ⟨⟨[Term.sort s], rfl⟩, fun hv => valid_terms _ hv⟩
  · simp only [addSortTerm, intern, hidx]
    rcases hl : lookupSort p (Term.sort s) with _ | s'
    · simp only [hl]
      exact ⟨⟨[], by simp [insertSort]⟩, fun hv => valid_insertSort hv rfl⟩
    · simp only [hl]
      exact ⟨⟨[], by simp⟩, fun hv => hv⟩

theorem computeSortF_caches {fuel : Nat} {p : Pool} {t : Term} {s : SortT} {p₂ : Pool}
    (h : computeSortF fuel p t = some (s, p₂)) : lookupSort p₂ t = some s := by
  cases fuel with
  | zero =>
    simp only [computeSortF] at h
    split at h
    · rename_i hc
      injection h with h1
      injection h1 with hs hp
      subst hs; subst hp
      exact (Option.some_get hc).symm
    · exact Option.noConfusion h
  | succ fuel =>
    simp only [computeSortF] at h
    split at h
    · rename_i hc
      injection h with h1
      injection h1 with hs hp
      subst hs; subst hp
      exact (Option.some_get hc).symm
    · rw [Option.map_eq_some'] at h
      obtain ⟨⟨s₀, q⟩, _, heq⟩ := h
      injection heq with hs hp
      subst hs; subst hp
      exact lookupSort_insert_self q t s₀

theorem computeSortF_cache_hit {fuel : Nat} {p : Pool} {t : Term} {s : SortT}
    (h : lookupSort p t = some s) : computeSortF fuel p t = some (s, p) := by
  have hc : (lookupSort p t).isSome := by rw [h]; rfl
  cases fuel <;> simp only [computeSortF] <;> rw [dif_pos hc, option_get_eq h hc]

theorem csf_wrap {p q : Pool} {t : Term} {s₀ : SortT}
    (h : (∃ ext, q.terms = p.terms ++ ext) ∧ (p.Valid → sortOf t = some s₀ ∧ q.Valid)) :
    (∃ ext, (insertSort q t s₀).terms = p.terms ++ ext) ∧
    (p.Valid → sortOf t = some s₀ ∧ (insertSort q t s₀).Valid) :=
  ⟨h.1, fun hv => ⟨(h.2 hv).1, valid_insertSort (h.2 hv).2 (h.2 hv).1⟩⟩

set_option maxHeartbeats 1600000 in
/-- Soundness of the fuelled sort computation: a successful run only appends
to the allocation list, and, starting from a valid cache, agrees with the
pure evaluator and preserves cache validity. -/
theorem csf_sound : ∀ fuel : Nat,
    (∀ p t s p₂, computeSortF fuel p t = some (s, p₂) →
      (∃ ext, p₂.terms = p.terms ++ ext) ∧
      (p.Valid → sortOf t = some s ∧ p₂.Valid)) ∧
    (∀ p ts b p₂, anyRealSortF fuel p ts = some (b, p₂) →
      (∃ ext, p₂.terms = p.terms ++ ext) ∧
      (p.Valid → sortOfAnyReal ts = some b ∧ p₂.Valid)) := by
  intro fuel
  induction fuel with
  | zero =>
    constructor
    · intro p t s p₂ h
      simp only [computeSortF] at h
      split at h
      · rename_i hc
        injection h with h1
        injection h1 with hs hp
        subst hs; subst hp
        exact ⟨⟨[], by simp⟩, fun hv => ⟨hv t _ (Option.some_get hc).symm, hv⟩⟩
      · exact Option.noConfusion h
    · intro p ts b p₂ h
      cases ts with
      | nil =>
        simp only [anyRealSortF] at h
        injection h with h1
        injection h1 with hb hp
        subst hb; subst hp
        exact ⟨⟨[], by simp⟩, fun hv => ⟨rfl, hv⟩⟩
      | cons a as =>
        simp only [anyRealSortF] at h
        exact Option.noConfusion h
  | succ fuel ih =>
    constructor
    · intro p t s p₂ h
      simp only [computeSortF] at h
      split at h
      · rename_i hc
        injection h with h1
        injection h1 with hs hp
        subst hs; subst hp
        exact ⟨⟨[], by simp⟩, fun hv => ⟨hv t _ (Option.some_get hc).symm, hv⟩⟩
      · rw [Option.map_eq_some'] at h
        obtain ⟨⟨s₀, q⟩, hsp, heq⟩ := h
        dsimp only at heq
        injection heq with hs hp
        subst hs; subst hp
        apply csf_wrap
        split at hsp <;> (try split at hsp) <;> (try split at hsp) <;>
          (try split at hsp) <;> (try split at hsp)
        all_goals first
        | exact Option.noConfusion hsp
        | (injection hsp with h1
           injection h1 with hs hq
           subst hs; subst hq
           refine ⟨⟨[], ?_⟩, fun hv => ⟨rfl, hv⟩⟩
           simp)
        | (rename computeSortF _ _ _ = some (SortT.array _ _, _) => heq2
           rw [Option.map_eq_some'] at hsp
           obtain ⟨s₁, ha, hb⟩ := hsp
           injection hb with hs hq
           subst hs; subst hq
           obtain ⟨hext, himp⟩ := ih.1 _ _ _ _ heq2
           refine ⟨hext, fun hv => ⟨?_, (himp hv).2⟩⟩
           simp [sortOf, (himp hv).1, ha])
        | (rename computeSortF _ _ _ = some (SortT.func _, _) => heq2
           rename lastTerm _ = some _ => hlast
           rw [Option.map_eq_some'] at hsp
           obtain ⟨s₁, ha, hb⟩ := hsp
           injection hb with hs hq
           subst hs; subst hq
           obtain ⟨hext, himp⟩ := ih.1 _ _ _ _ heq2
           refine ⟨hext, fun hv => ⟨?_, (himp hv).2⟩⟩
           simp [sortOf, (himp hv).1, hlast, ha])
        | (rename computeSortF _ _ _ = some _ => heq2
           injection hsp with h1
           injection h1 with hs hq
           subst hs; subst hq
           rename BindingList => bs2
           obtain ⟨⟨e₁, he₁⟩, himp⟩ := ih.1 _ _ _ _ heq2
           obtain ⟨⟨e₂, he₂⟩, hval⟩ := addSortTerm_ext_valid _ _
           refine ⟨⟨e₁ ++ e₂, by rw [he₂, he₁, List.append_assoc]⟩,
             fun hv => ⟨?_, hval (himp hv).2⟩⟩
           simp [sortOf, (himp hv).1])
        | (rw [Option.map_eq_some'] at hsp
           obtain ⟨s₁, ha, hb⟩ := hsp
           injection hb with hs hq
           subst hs; subst hq
           refine ⟨⟨[], ?_⟩, fun hv => ⟨ha, hv⟩⟩
           simp)
        | (rw [Option.map_eq_some'] at hsp
           obtain ⟨bq, ha, hb⟩ := hsp
           injection hb with hs hq
           subst hs; subst hq
           obtain ⟨hext, himp⟩ := ih.2 _ _ _ _ ha
           refine ⟨hext, fun hv => ⟨?_, (himp hv).2⟩⟩
           obtain ⟨b, q2⟩ := bq
           simp [sortOf, (himp hv).1])
        | (refine ⟨(ih.1 _ _ _ _ hsp).1, fun hv => ⟨?_, ((ih.1 _ _ _ _ hsp).2 hv).2⟩⟩
           simp only [sortOf]
           exact ((ih.1 _ _ _ _ hsp).2 hv).1)
    · intro p ts b p₂ h
      cases ts with
      | nil =>
        simp only [anyRealSortF] at h
        injection h with h1
        injection h1 with hb hp
        subst hb; subst hp
        exact ⟨⟨[], by simp⟩, fun hv => ⟨rfl, hv⟩⟩
      | cons a as =>
        simp only [anyRealSortF] at h
        split at h
        · exact Option.noConfusion h
        · rename_i s₀ p₁ heq2
          split at h
          · rename_i hreal
            injection h with h1
            injection h1 with hb hp
            subst hb; subst hp
            subst hreal
            obtain ⟨hext, himp⟩ := ih.1 _ _ _ _ heq2
            exact ⟨hext, fun hv => ⟨by simp [sortOfAnyReal, (himp hv).1], (himp hv).2⟩⟩
          · rename_i hreal
            obtain ⟨⟨e₁, he₁⟩, himp₁⟩ := ih.1 _ _ _ _ heq2
            obtain ⟨⟨e₂, he₂⟩, himp₂⟩ := ih.2 _ _ _ _ h
            refine ⟨⟨e₁ ++ e₂, by rw [he₂, he₁, List.append_assoc]⟩, fun hv => ?_⟩
            obtain ⟨hsa, hv₁⟩ := himp₁ hv
            obtain ⟨hany, hv₂⟩ := himp₂ hv₁
            exact ⟨by simp [sortOfAnyReal, hsa, hreal, hany], hv₂⟩

theorem computeSort_sound {p : Pool} {t : Term} {s : SortT} {p₂ : Pool}
    (h : computeSort p t = some (s, p₂)) :
    (∃ ext, p₂.terms = p.terms ++ ext) ∧ (p.Valid → sortOf t = some s ∧ p₂.Valid) :=
  (csf_sound (sizeT t)).1 p t s p₂ h

theorem add_elim {p : Pool} {t : Term} {r : Nat} {p₁ : Pool}
    (h : Pool.add p t = some (r, p₁)) :
    idxOf? t p₁.terms = some r ∧ (∃ s, lookupSort p₁ t = some s) ∧
    ∃ ext, p₁.terms = p.terms ++ ext := by
  unfold Pool.add at h
  split at h
  rename_i r' q heqI
  split at h
  · rename_i s₀ p₂ hCS
    injection h with h1
    injection h1 with hr hp
    subst hr; subst hp
    obtain ⟨hidx, e₀, he₀⟩ := intern_idxOf heqI
    obtain ⟨⟨e₁, he₁⟩, _⟩ := computeSort_sound hCS
    refine ⟨?_, ⟨s₀, computeSortF_caches hCS⟩, e₀ ++ e₁, by rw [he₁, he₀, List.append_assoc]⟩
    rw [he₁]
    exact idxOf?_append t q.terms e₁ _ hidx
  · exact Option.noConfusion h

theorem add_get? {p : Pool} {t : Term} {r : Nat} {p₁ : Pool}
    (h : Pool.add p t = some (r, p₁)) : p₁.terms.get? r = some t :=
  idxOf?_get? t p₁.terms r (add_elim h).1

/-- C4: interning in `TermPool::add` is idempotent but `add` can fail: once
`add p t` has succeeded with reference `r₁` and pool `p₁`, adding a
structurally equal copy succeeds, returns the same reference `r₁`, and
leaves the pool unchanged (nothing is allocated); and any two references
obtained by consecutive adds are equal only if the added terms are
structurally equal.  (The claim's further assertion that `add` never fails
is refuted by `C4_counterexample`.) -/
theorem C4_pool_interning (p : Pool) (t₁ t₂ : Term) (r₁ : Nat) (p₁ : Pool)
    (h₁ : Pool.add p t₁ = some (r₁, p₁)) :
    (t₂ = t₁ → Pool.add p₁ t₂ = some (r₁, p₁)) ∧
    (∀ r₂ p₂, Pool.add p₁ t₂ = some (r₂, p₂) → r₁ = r₂ → t₁ = t₂) := by
  obtain ⟨hidx, ⟨s₁, hls⟩, hext⟩ := add_elim h₁
  constructor
  · intro ht
    subst ht
    have hI : intern p₁ t₂ = (r₁, p₁) := by
      unfold intern
      rw [hidx]
    have hC : computeSort p₁ t₂ = some (s₁, p₁) := computeSortF_cache_hit hls
    simp only [Pool.add, hI, hC]
  · intro r₂ p₂ h₂ hr
    have hg₁ : p₁.terms.get? r₁ = some t₁ := idxOf?_get? t₁ p₁.terms r₁ hidx
    have hg₂ : p₂.terms.get? r₂ = some t₂ := add_get? h₂
    obtain ⟨e, he⟩ := (add_elim h₂).2.2
    subst hr
    obtain ⟨hlt, _⟩ := List.get?_eq_some.mp hg₁
    rw [he, List.get?_append hlt, hg₁] at hg₂
    injection hg₂

/-- C4 counterexample: `add` fails on a fresh pool for `(select 1 0)` (a
`select` whose first argument is not of array sort), refuting the claim's
"add never fails". -/
theorem C4_counterexample :
    Pool.add Pool.new (.op .select (.cons (.terminal (.integer 1))
      (.cons (.terminal (.integer 0)) .nil))) = none := by decide

/-- Witness for C4: adding the integer constant `7` to a fresh pool, then
adding it again. -/
theorem C4_witness :
    Pool.add Pool.new (cT 7) = some (3, c4Pool) ∧
    ((cT 7 = cT 7 → Pool.add c4Pool (cT 7) = some (3, c4Pool)) ∧
     (∀ r₂ p₂, Pool.add c4Pool (cT 7) = some (r₂, p₂) → 3 = r₂ → cT 7 = cT 7)) :=
  ⟨by decide, C4_pool_interning Pool.new (cT 7) (cT 7) 3 c4Pool (by decide)⟩

theorem anyReal_iff : ∀ (ts : TermList) (b : Bool), sortOfAnyReal ts = some b →
    (b = true ↔ ∃ a ∈ TermList.toList ts, sortOf a = some SortT.real)
  | .nil, b, h => by
    simp only [sortOfAnyReal] at h
    injection h with h1
    subst h1
    simp [TermList.toList]
  | .cons a as, b, h => by
    simp only [sortOfAnyReal] at h
    split at h
    · exact Option.noConfusion h
    · rename_i s₀ hsa
      split at h
      · rename_i hr
        injection h with h1
        subst h1
        subst hr
        simp only [TermList.toList, List.mem_cons]
        constructor
        · intro _
          exact ⟨a, Or.inl rfl, hsa⟩
        · intro _
          trivial
      · rename_i hr
        rw [anyReal_iff as b h]
        simp only [TermList.toList, List.mem_cons]
        constructor
        · rintro ⟨x, hx, hxr⟩
          exact ⟨x, Or.inr hx, hxr⟩
        · rintro ⟨x, hx | hx, hxr⟩
          · subst hx
            rw [hsa] at hxr
            injection hxr with hxr
            exact absurd hxr hr
          · exact ⟨x, hx, hxr⟩
termination_by structural ts _ _ => ts

theorem poolNew_valid : Pool.new.Valid := by
  intro t s h
  simp only [Pool.new, lookupSort, Option.map_eq_some'] at h
  obtain ⟨e, he, hs⟩ := h
  have hmem := List.mem_of_find?_eq_some he
  have hp := List.find?_some he
  have het : e.1 = t := by simpa using hp
  simp only [List.mem_cons, List.not_mem_nil, or_false] at hmem
  rcases hmem with h1 | h1 | h1 <;> subst h1 <;> rw [← het, ← hs] <;> rfl

/-- C7: in carcara's `compute_sort`, starting from a valid cache, an
`Add`/`Sub`/`Mult` application's sort is `Real` exactly when some argument's
sort is `Real`, and `Int` otherwise; but the cited prototype `Term::sort`
instead returns the first argument's sort for every arithmetic operator,
ignoring the remaining arguments (refuted concretely by
`C7_counterexample`). -/
theorem C7_arith_sort (p : Pool) (o : Op) (args : TermList) (s : SortT) (p₂ : Pool)
    (hv : p.Valid) (ho : o = .add ∨ o = .sub ∨ o = .mult)
    (h : computeSort p (.op o args) = some (s, p₂)) :
    (∃ b, sortOfAnyReal args = some b ∧ s = (if b then SortT.real else SortT.int) ∧
      (b = true ↔ ∃ a ∈ TermList.toList args, sortOf a = some SortT.real)) ∧
    (∀ (po : POp) (pa : PTerm) (rest : PTermList), po = .add ∨ po = .sub ∨ po = .mult →
      PTerm.sortOf (.op po (.cons pa rest)) = PTerm.sortOf pa) := by
  constructor
  · have hs := (((csf_sound (sizeT (.op o args))).1 p _ s p₂ h).2 hv).1
    rcases ho with rfl | rfl | rfl <;>
    · simp only [sortOf, Option.map_eq_some'] at hs
      obtain ⟨b, hb, hsb⟩ := hs
      exact ⟨b, hb, hsb.symm, anyReal_iff args b hb⟩
  · intro po pa rest hpo
    rcases hpo with rfl | rfl | rfl <;> rfl

/-- C7 counterexample: the prototype's `Term::sort` on `(+ 1 1.0)` — an
addition with an `Int` first argument and a `Real` second argument — returns
`Int`, not `Real`, even though an argument's sort is `Real`. -/
theorem C7_counterexample :
    PTerm.sortOf (.op .add (.cons (.terminal (.integer 1))
      (.cons (.terminal (.real 1)) .nil))) = some (psortNamed "Int") ∧
    psortNamed "Int" ≠ psortNamed "Real" ∧
    sortOf (.terminal (.real 1)) = some SortT.real := by
  refine ⟨rfl, ?_, rfl⟩
  intro h
  simp [psortNamed] at h

/-- Witness for C7: carcara's `compute_sort` on the same mixed addition
`(+ 1 1.0)` in a fresh pool, which yields `Real`. -/
theorem C7_witness :
    (∃ b, sortOfAnyReal c7Args = some b ∧
      SortT.real = (if b then SortT.real else SortT.int) ∧
      (b = true ↔ ∃ a ∈ TermList.toList c7Args, sortOf a = some SortT.real)) ∧
    (∀ (po : POp) (pa : PTerm) (rest : PTermList), po = .add ∨ po = .sub ∨ po = .mult →
      PTerm.sortOf (.op po (.cons pa rest)) = PTerm.sortOf pa) :=
  C7_arith_sort Pool.new .add c7Args SortT.real c7Pool poolNew_valid (Or.inl rfl) (by decide)
